import Mathlib

set_option maxRecDepth 100000

/-!
Verification of the three-stage compiler core of `crab_lang`
(`src/lexer.rs`, `src/parser.rs`, `src/codegen.rs`) against its
natural-language specification.

The Rust code is shallowly embedded below.  Points of the embedding:

* Recursion over the token stream, the statement tree and the character
  stream is expressed with an explicit fuel parameter so that every
  definition is structurally recursive and kernel-reducible; the public
  wrappers (`tokenize`, `genProgram`, ...) instantiate the fuel with a
  bound strictly larger than the size of the argument, which every
  general lemma shows is sufficient.
* Rust `panic!` (lexer on a lone `!`, parser on an unexpected token,
  code generator on an unbound variable) is embedded as `Option.none` /
  `Except.error`: the process aborts with no result.
* The output `String` built by `CodeGen::emit` / `emit_indent` is kept
  as the list of its emitted lines, in order; `emit_indent` prepends the
  four-space indent exactly as the source does.  `println!` diagnostics
  that go to stdout, not into the output, are collected in a separate
  `diags` field.
* `CodeGen::gen_stmt` has no match arm for `Stmt::While` although the
  parser produces that variant; the embedding gives that missing arm the
  explicit error value `GenErr.undefinedWhile`, recording that the
  source defines no lowering for it.
-/
/-! ## Decimal rendering, as Rust's `format!` displays integers -/
/-- Decimal digits of `n`, most significant first, empty for `0`; the
fuel argument makes the recursion structural, and any `fuel > n` gives
the same digits. -/
def natFmtAux : Nat → Nat → List Char
  | 0, _ => []
  | fuel + 1, n =>
    if n = 0 then [] else natFmtAux fuel (n / 10) ++ [Nat.digitChar (n % 10)]

/-- Decimal rendering of a natural number, as Rust's `{}` format. -/
def natFmt (n : Nat) : String :=
  if n = 0 then "0" else String.mk (natFmtAux (n + 1) n)

/-- Decimal rendering of a signed integer, as Rust's `{}` format. -/
def intFmt (i : Int) : String :=
  if i < 0 then "-" ++ natFmt i.natAbs else natFmt i.toNat

/-- Numeric value of a rendered digit string, used only to prove
`natFmt` injective. -/
def decVal (l : List Char) : Nat :=
  l.foldl (fun a c => a * 10 + (c.toNat - '0'.toNat)) 0

/-! ## Lexer (`src/lexer.rs`) -/
/-- Token type of `lexer.rs`, one constructor per Rust enum variant. -/
inductive Token where
  | Let
  | While
  | If
  | Elif
  | Else
  | Exit
  | Ident (name : String)
  | Number (value : Int)
  | Equal
  | Plus
  | Minus
  | Asterisk
  | Slash
  | LParen
  | RParen
  | LBrace
  | RBrace
  | Semicolon
  | EqualEqual
  | NotEqual
  | Greater
  | GreaterEqual
  | Less
  | LessEqual
deriving DecidableEq, Repr

/-- The Rust pattern `'a'..='z' | 'A'..='Z'` that starts an identifier. -/
def isAlphaCh (c : Char) : Bool :=
  ('a' ≤ c && c ≤ 'z') || ('A' ≤ c && c ≤ 'Z')

/-- The Rust pattern `'0'..='9'`. -/
def isDigitCh (c : Char) : Bool :=
  '0' ≤ c && c ≤ '9'

/-- Characters that continue an identifier run: letters, digits, underscore. -/
def isIdentChar (c : Char) : Bool :=
  isAlphaCh c || isDigitCh c || c = '_'

/-- Wrapping 32-bit signed arithmetic, the release-mode behaviour of the
`i32` accumulation in the lexer's number branch. -/
def wrap32 (n : Int) : Int :=
  (n + 2 ^ 31) % 2 ^ 32 - 2 ^ 31

/-- Keyword classification of a completed identifier run. -/
def keywordOf (s : String) : Token :=
  if s = "let" then Token.Let
  else if s = "exit" then Token.Exit
  else if s = "while" then Token.While
  else if s = "if" then Token.If
  else if s = "elif" then Token.Elif
  else if s = "else" then Token.Else
  else Token.Ident s

/-- The `i32` decimal accumulation `number = number * 10 + (c - '0')` over
a digit run. -/
def digitsVal (run : List Char) : Int :=
  run.foldl (fun n c => wrap32 (wrap32 (n * 10) + ((c.toNat : Int) - ('0'.toNat : Int)))) 0

/-- One step of `Lexer::tokenize`, fuelled.  Each branch mirrors the Rust
match arm for the peeked character, in source order; note that the `'>'`
and `'<'` arms inspect the following character but do not consume it,
exactly as the source does (only the `'='` and `'!'` arms advance past a
second character).  A lone `'!'` is the only `panic!`, embedded as `none`. -/
def tokenizeF : Nat → List Char → Option (List Token)
  | 0, _ => none
  | _ + 1, [] => some []
  | fuel + 1, c :: cs =>
    if isAlphaCh c then
      (tokenizeF fuel ((c :: cs).dropWhile isIdentChar)).map
        (keywordOf (String.mk ((c :: cs).takeWhile isIdentChar)) :: ·)
    else if isDigitCh c then
      (tokenizeF fuel ((c :: cs).dropWhile isDigitCh)).map
        (Token.Number (digitsVal ((c :: cs).takeWhile isDigitCh)) :: ·)
    else if c = '=' then
      if cs.head? = some '=' then (tokenizeF fuel cs.tail).map (Token.EqualEqual :: ·)
      else (tokenizeF fuel cs).map (Token.Equal :: ·)
    else if c = '>' then
      if cs.head? = some '=' then (tokenizeF fuel cs).map (Token.GreaterEqual :: ·)
      else (tokenizeF fuel cs).map (Token.Greater :: ·)
    else if c = '<' then
      if cs.head? = some '=' then (tokenizeF fuel cs).map (Token.LessEqual :: ·)
      else (tokenizeF fuel cs).map (Token.Less :: ·)
    else if c = '!' then
      if cs.head? = some '=' then (tokenizeF fuel cs.tail).map (Token.NotEqual :: ·)
      else none
    else if c = '+' then (tokenizeF fuel cs).map (Token.Plus :: ·)
    else if c = '-' then (tokenizeF fuel cs).map (Token.Minus :: ·)
    else if c = '*' then (tokenizeF fuel cs).map (Token.Asterisk :: ·)
    else if c = '/' then (tokenizeF fuel cs).map (Token.Slash :: ·)
    else if c = '(' then (tokenizeF fuel cs).map (Token.LParen :: ·)
    else if c = ')' then (tokenizeF fuel cs).map (Token.RParen :: ·)
    else if c = '\x7b' then (tokenizeF fuel cs).map (Token.LBrace :: ·)
    else if c = '\x7d' then (tokenizeF fuel cs).map (Token.RBrace :: ·)
    else if c = ';' then (tokenizeF fuel cs).map (Token.Semicolon :: ·)
    else if c = ' ' || c = '\n' || c = '\t' || c = '\r' then tokenizeF fuel cs
    else tokenizeF fuel cs

/-- `Lexer::tokenize`: the fuel `length + 1` always suffices because every
recursive call consumes at least one character. -/
def tokenize (l : List Char) : Option (List Token) :=
  tokenizeF (l.length + 1) l

/-- Tokenize a source string. -/
def tokenizeStr (s : String) : Option (List Token) :=
  tokenize s.data

/-- A `'!'` that the left-to-right scan reaches without an immediately
following `'='`, mirroring the only abnormal exit of the lexer. -/
def hasLoneBang : List Char → Bool
  | [] => false
  | [c] => c = '!'
  | c :: d :: rest =>
    if c = '!' then
      if d = '=' then hasLoneBang rest else true
    else hasLoneBang (d :: rest)

/-- The characters the lexer gives any meaning to: identifier letters,
digits, the operator and punctuation characters, and whitespace.  Any
other character hits the silent catch-all `_ => {}` arm. -/
def recognizedChar (c : Char) : Bool :=
  isAlphaCh c || isDigitCh c ||
  c = '=' || c = '>' || c = '<' || c = '!' || c = '+' || c = '-' || c = '*' || c = '/' ||
  c = '(' || c = ')' || c = '\x7b' || c = '\x7d' || c = ';' ||
  c = ' ' || c = '\n' || c = '\t' || c = '\r'

/-! ## AST (`src/parser.rs`)

`Vec<Stmt>` in the `While`/`If` statement bodies and
`Option<Vec<Stmt>>` in the else slot are represented by the mutual
types `StmtList` and `ElseBlock` (isomorphic to `List Stmt` and
`Option (List Stmt)`), so that every function over the tree is plain
structural recursion. -/
/-- Operator enum of `parser.rs`. -/
inductive Op where
  | Add
  | Sub
  | Mul
  | Div
  | Eq
  | NotEq
  | Gt
  | Gte
  | Lt
  | Lte
deriving DecidableEq, Repr

/-- Expression tree of `parser.rs`. -/
inductive Expr where
  | Ident (name : String)
  | Num (value : Int)
  | BinOp (left : Expr) (op : Op) (right : Expr)
  | UnaryOp (op : Op) (operand : Expr)
deriving DecidableEq, Repr

mutual

/-- Statement tree of `parser.rs`; `If` carries the then body, the
ordered elif list and the optional else body. -/
inductive Stmt where
  | Let (name : String) (init : Expr)
  | Exit (e : Expr)
  | While (cond : Expr) (body : StmtList)
  | If (cond : Expr) (thenB : StmtList) (elifs : ElifList) (elseB : ElseBlock)

/-- A `Vec<Stmt>`: a statement sequence. -/
inductive StmtList where
  | nil
  | cons (s : Stmt) (rest : StmtList)

/-- A `Vec<(Expr, Vec<Stmt>)>`: the elif branches of an `If`. -/
inductive ElifList where
  | nil
  | cons (cond : Expr) (body : StmtList) (rest : ElifList)

/-- An `Option<Vec<Stmt>>`: the optional else body of an `If`. -/
inductive ElseBlock where
  | none
  | some (body : StmtList)

end

/-- Statement-sequence literal from a `List` of statements. -/
def StmtList.ofList : List Stmt → StmtList
  | [] => StmtList.nil
  | s :: rest => StmtList.cons s (StmtList.ofList rest)

/-- Number of statements in a sequence. -/
def StmtList.length : StmtList → Nat
  | StmtList.nil => 0
  | StmtList.cons _ rest => 1 + rest.length

/-- Number of elif branches. -/
def ElifList.length : ElifList → Nat
  | ElifList.nil => 0
  | ElifList.cons _ _ rest => 1 + rest.length

/-- Whether the else block is present. -/
def ElseBlock.isSome : ElseBlock → Bool
  | ElseBlock.none => false
  | ElseBlock.some _ => true

/-! ## Parser (`src/parser.rs`) -/
/-- `Parser::expect`: consume one token and compare.  The source compares
discriminants; every call site passes a payload-free token, for which the
discriminant test coincides with equality. -/
def expectTok (expected : Token) (ts : List Token) : Option (List Token) :=
  match ts with
  | t :: rest => if t = expected then some rest else none
  | [] => none

mutual

/-- `Parser::parse_primary`, fuelled. -/
def parsePrimaryF : Nat → List Token → Option (Expr × List Token)
  | 0, _ => none
  | fuel + 1, ts =>
    match ts with
    | Token.Number n :: rest => some (Expr.Num n, rest)
    | Token.Ident x :: rest => some (Expr.Ident x, rest)
    | Token.LParen :: rest => do
        let (e, ts1) ← parseCompF fuel rest
        let ts2 ← expectTok Token.RParen ts1
        some (e, ts2)
    | _ => none

/-- `Parser::parse_unary`, fuelled: a leading `+` or `-` wraps the next
primary only. -/
def parseUnaryF : Nat → List Token → Option (Expr × List Token)
  | 0, _ => none
  | fuel + 1, ts =>
    match ts with
    | Token.Plus :: rest => do
        let (e, ts1) ← parsePrimaryF fuel rest
        some (Expr.UnaryOp Op.Add e, ts1)
    | Token.Minus :: rest => do
        let (e, ts1) ← parsePrimaryF fuel rest
        some (Expr.UnaryOp Op.Sub e, ts1)
    | _ => parsePrimaryF fuel ts

/-- `Parser::parse_mul`, fuelled. -/
def parseMulF : Nat → List Token → Option (Expr × List Token)
  | 0, _ => none
  | fuel + 1, ts => do
    let (left, ts1) ← parseUnaryF fuel ts
    parseMulLoopF fuel left ts1

/-- The `while` loop of `parse_mul`, fuelled. -/
def parseMulLoopF : Nat → Expr → List Token → Option (Expr × List Token)
  | 0, _, _ => none
  | fuel + 1, left, ts =>
    match ts with
    | Token.Asterisk :: rest => do
        let (r, ts1) ← parseUnaryF fuel rest
        parseMulLoopF fuel (Expr.BinOp left Op.Mul r) ts1
    | Token.Slash :: rest => do
        let (r, ts1) ← parseUnaryF fuel rest
        parseMulLoopF fuel (Expr.BinOp left Op.Div r) ts1
    | _ => some (left, ts)

/-- `Parser::parse_add`, fuelled. -/
def parseAddF : Nat → List Token → Option (Expr × List Token)
  | 0, _ => none
  | fuel + 1, ts => do
    let (left, ts1) ← parseMulF fuel ts
    parseAddLoopF fuel left ts1

/-- The `while` loop of `parse_add`, fuelled. -/
def parseAddLoopF : Nat → Expr → List Token → Option (Expr × List Token)
  | 0, _, _ => none
  | fuel + 1, left, ts =>
    match ts with
    | Token.Plus :: rest => do
        let (r, ts1) ← parseMulF fuel rest
        parseAddLoopF fuel (Expr.BinOp left Op.Add r) ts1
    | Token.Minus :: rest => do
        let (r, ts1) ← parseMulF fuel rest
        parseAddLoopF fuel (Expr.BinOp left Op.Sub r) ts1
    | _ => some (left, ts)

/-- `Parser::parse_comparison` (the body of `parse_expr`), fuelled. -/
def parseCompF : Nat → List Token → Option (Expr × List Token)
  | 0, _ => none
  | fuel + 1, ts => do
    let (left, ts1) ← parseAddF fuel ts
    parseCompLoopF fuel left ts1

/-- The `while` loop of `parse_comparison`, fuelled. -/
def parseCompLoopF : Nat → Expr → List Token → Option (Expr × List Token)
  | 0, _, _ => none
  | fuel + 1, left, ts =>
    match ts with
    | Token.EqualEqual :: rest => do
        let (r, ts1) ← parseAddF fuel rest
        parseCompLoopF fuel (Expr.BinOp left Op.Eq r) ts1
    | Token.NotEqual :: rest => do
        let (r, ts1) ← parseAddF fuel rest
        parseCompLoopF fuel (Expr.BinOp left Op.NotEq r) ts1
    | Token.Greater :: rest => do
        let (r, ts1) ← parseAddF fuel rest
        parseCompLoopF fuel (Expr.BinOp left Op.Gt r) ts1
    | Token.GreaterEqual :: rest => do
        let (r, ts1) ← parseAddF fuel rest
        parseCompLoopF fuel (Expr.BinOp left Op.Gte r) ts1
    | Token.Less :: rest => do
        let (r, ts1) ← parseAddF fuel rest
        parseCompLoopF fuel (Expr.BinOp left Op.Lt r) ts1
    | Token.LessEqual :: rest => do
        let (r, ts1) ← parseAddF fuel rest
        parseCompLoopF fuel (Expr.BinOp left Op.Lte r) ts1
    | _ => some (left, ts)

end

/-- `Parser::parse_expr`: delegates to the comparison level. -/
def parseExprF (fuel : Nat) (ts : List Token) : Option (Expr × List Token) :=
  parseCompF fuel ts

mutual

/-- `Parser::parse` (the statement-sequence loop), fuelled.  Terminates
normally at end of input, returns without consuming on a leading `RBrace`
(end of the current block), and aborts on any other unexpected leading
token. -/
def parseStmtsF : Nat → List Token → Option (StmtList × List Token)
  | 0, _ => none
  | fuel + 1, ts =>
    match ts with
    | [] => some (StmtList.nil, [])
    | Token.RBrace :: _ => some (StmtList.nil, ts)
    | Token.Let :: rest => do
        match rest with
        | Token.Ident id :: r1 => do
            let r2 ← expectTok Token.Equal r1
            let (e, r3) ← parseExprF (8 * r2.length + 16) r2
            let r4 ← expectTok Token.Semicolon r3
            let (stmts, rest') ← parseStmtsF fuel r4
            some (StmtList.cons (Stmt.Let id e) stmts, rest')
        | _ => none
    | Token.Exit :: rest => do
        let r1 ← expectTok Token.LParen rest
        let (e, r2) ← parseExprF (8 * r1.length + 16) r1
        let r3 ← expectTok Token.RParen r2
        let r4 ← expectTok Token.Semicolon r3
        let (stmts, rest') ← parseStmtsF fuel r4
        some (StmtList.cons (Stmt.Exit e) stmts, rest')
    | Token.While :: rest => do
        let r1 ← expectTok Token.LParen rest
        let (cond, r2) ← parseExprF (8 * r1.length + 16) r1
        let r3 ← expectTok Token.RParen r2
        let r4 ← expectTok Token.LBrace r3
        let (body, r5) ← parseStmtsF fuel r4
        let r6 ← expectTok Token.RBrace r5
        let (stmts, rest') ← parseStmtsF fuel r6
        some (StmtList.cons (Stmt.While cond body) stmts, rest')
    | Token.If :: rest => do
        let r1 ← expectTok Token.LParen rest
        let (cond, r2) ← parseExprF (8 * r1.length + 16) r1
        let r3 ← expectTok Token.RParen r2
        let r4 ← expectTok Token.LBrace r3
        let (thenB, r5) ← parseStmtsF fuel r4
        let r6 ← expectTok Token.RBrace r5
        let (elifs, r7) ← parseElifsF fuel r6
        let (elseB, r8) ←
          match r7 with
          | Token.Else :: r7a => do
              let r7b ← expectTok Token.LBrace r7a
              let (b, r7c) ← parseStmtsF fuel r7b
              let r7d ← expectTok Token.RBrace r7c
              some (ElseBlock.some b, r7d)
          | _ => some (ElseBlock.none, r7)
        let (stmts, rest') ← parseStmtsF fuel r8
        some (StmtList.cons (Stmt.If cond thenB elifs elseB) stmts, rest')
    | _ => none

/-- The elif-collection loop inside the `If` arm of `Parser::parse`. -/
def parseElifsF : Nat → List Token → Option (ElifList × List Token)
  | 0, _ => none
  | fuel + 1, ts =>
    match ts with
    | Token.Elif :: rest => do
        let r1 ← expectTok Token.LParen rest
        let (cond, r2) ← parseExprF (8 * r1.length + 16) r1
        let r3 ← expectTok Token.RParen r2
        let r4 ← expectTok Token.LBrace r3
        let (body, r5) ← parseStmtsF fuel r4
        let r6 ← expectTok Token.RBrace r5
        let (elifs, rest') ← parseElifsF fuel r6
        some (ElifList.cons cond body elifs, rest')
    | _ => some (ElifList.nil, ts)

end

/-- `Parser::new(tokens).parse()`: the top-level statement sequence.  At
top level a leading `RBrace` makes `parse` return early, silently leaving
the remaining tokens unconsumed, exactly as the source does. -/
def parseProgram (ts : List Token) : Option StmtList :=
  (parseStmtsF (8 * ts.length + 16) ts).map (·.1)

/-- Lex then parse a source string. -/
def frontend (s : String) : Option StmtList := do
  let ts ← tokenizeStr s
  parseProgram ts

/-! ## Code generator (`src/codegen.rs`) -/
/-- Abnormal terminations of the generation pass.  `unboundVar` embeds
the `panic!("undefined variable: ...")` of `gen_expr`; `undefinedWhile`
stands for the missing `Stmt::While` arm of `gen_stmt`, for which the
source defines no behaviour at all. -/
inductive GenErr where
  | undefinedWhile
  | unboundVar (name : String)
deriving DecidableEq, Repr

/-- The `CodeGen` struct.  `lines` is the output `String` split at the
newlines `emit`/`emit_indent` append; `vars` is the
`HashMap<String, i64>`; `diags` collects `println!` text that goes to
stdout, not into the output. -/
structure CodeGen where
  lines : List String
  vars : String → Option Int
  stack_offset : Int
  label_counter : Nat
  diags : List String

/-- `CodeGen::new()`. -/
def CodeGen.new : CodeGen :=
  { lines := [], vars := fun _ => none, stack_offset := 0, label_counter := 0, diags := [] }

/-- `CodeGen::emit`: append one unindented output line. -/
def emit (line : String) (st : CodeGen) : CodeGen :=
  { st with lines := st.lines ++ [line] }

/-- `CodeGen::emit_indent`: append one four-space-indented output line. -/
def emit_indent (line : String) (st : CodeGen) : CodeGen :=
  { st with lines := st.lines ++ ["    " ++ line] }

/-- `CodeGen::new_label`: render `.pre_counter` and bump the counter. -/
def new_label (pre : String) (st : CodeGen) : String × CodeGen :=
  ("." ++ pre ++ "_" ++ natFmt st.label_counter,
    { st with label_counter := st.label_counter + 1 })

/-- The instruction lines the `match op` in `gen_expr`'s `BinOp` arm
emits once the left operand is in `rax` and the right in `rbx`. -/
def genOpEmit (op : Op) (st : CodeGen) : CodeGen :=
  match op with
  | Op.Add => emit_indent "add rax, rbx" st
  | Op.Sub => emit_indent "sub rax, rbx" st
  | Op.Mul => emit_indent "imul rax, rbx" st
  | Op.Div => emit_indent "idiv rbx" (emit_indent "cqo" st)
  | Op.Eq => emit_indent "movzx rax, al" (emit_indent "sete al" (emit_indent "cmp rax, rbx" st))
  | Op.NotEq => emit_indent "movzx rax, al" (emit_indent "setne al" (emit_indent "cmp rax, rbx" st))
  | Op.Gt => emit_indent "movzx rax, al" (emit_indent "setg al" (emit_indent "cmp rax, rbx" st))
  | Op.Gte => emit_indent "movzx rax, al" (emit_indent "setge al" (emit_indent "cmp rax, rbx" st))
  | Op.Lt => emit_indent "movzx rax, al" (emit_indent "setl al" (emit_indent "cmp rax, rbx" st))
  | Op.Lte => emit_indent "movzx rax, al" (emit_indent "setle al" (emit_indent "cmp rax, rbx" st))

/-- `CodeGen::gen_expr`.  The only failure is an unbound identifier; the
`UnaryOp` arm for any operator other than `Sub` prints a diagnostic to
stdout and falls through, leaving the output and accumulator untouched,
exactly as the source's `_ => println!("Unary Operator error")` arm. -/
def genExpr : Expr → CodeGen → Except GenErr CodeGen
  | Expr.Num n, st => .ok (emit_indent ("mov rax, " ++ intFmt n) st)
  | Expr.Ident name, st =>
    match st.vars name with
    | some off => .ok (emit_indent ("mov rax, [rbp" ++ intFmt off ++ "]") st)
    | none => .error (GenErr.unboundVar name)
  | Expr.BinOp l op r, st => do
    let st ← genExpr r st
    let st := emit_indent "push rax" st
    let st ← genExpr l st
    let st := emit_indent "pop rbx" st
    .ok (genOpEmit op st)
  | Expr.UnaryOp op e, st => do
    let st ← genExpr e st
    match op with
    | Op.Sub => .ok (emit_indent "neg rax" st)
    | _ => .ok { st with diags := st.diags ++ ["Unary Operator error"] }

mutual

/-- `CodeGen::gen_stmt`.  The source's `match stmt` has arms for `Let`,
`Exit` and `If` only; the `While` variant the parser produces has no
arm, so its lowering is not defined by the source — that missing arm is
embedded as the error `GenErr.undefinedWhile`. -/
def genStmt : Stmt → CodeGen → Except GenErr CodeGen
  | Stmt.Let name e, st => do
    let st := emit_indent ("; let " ++ name ++ " = ...") st
    let st ← genExpr e st
    let off := st.stack_offset - 8
    let st := { st with stack_offset := off,
                        vars := fun k => if k = name then some off else st.vars k }
    let st := emit_indent ("mov [rbp" ++ intFmt off ++ "], rax") st
    .ok (emit "" st)
  | Stmt.Exit e, st => do
    let st := emit_indent "; exit" st
    let st ← genExpr e st
    let st := emit_indent "mov rdi, rax" st
    let st := emit_indent "mov rax, 60" st
    let st := emit_indent "syscall" st
    .ok (emit "" st)
  | Stmt.While _ _, _ => .error GenErr.undefinedWhile
  | Stmt.If cond thenB elifs elseB, st => do
    let (end_label, st) := new_label "if_end" st
    let st := emit_indent "; if condition" st
    let st ← genExpr cond st
    let st := emit_indent "cmp rax, 0" st
    match elifs, elseB with
    | ElifList.nil, ElseBlock.none =>
      let st := emit_indent ("je " ++ end_label) st
      let st := emit_indent "; then block" st
      let st ← genStmts thenB st
      let st := emit (end_label ++ ":") st
      .ok (emit "" st)
    | elifs, elseB =>
      let (next0, st) := new_label "elif" st
      let st := emit_indent ("je " ++ next0) st
      let st := emit_indent "; then block" st
      let st ← genStmts thenB st
      let st := emit_indent ("jmp " ++ end_label) st
      let (next_fin, st) ← genElifs elifs next0 end_label st
      let st := emit (next_fin ++ ":") st
      let st ←
        match elseB with
        | ElseBlock.some els => genStmts els (emit_indent "; else block" st)
        | ElseBlock.none => .ok st
      let st := emit (end_label ++ ":") st
      .ok (emit "" st)

/-- The `for stmt in stmts` loops of `generate` and of the `If` arm. -/
def genStmts : StmtList → CodeGen → Except GenErr CodeGen
  | StmtList.nil, st => .ok st
  | StmtList.cons s rest, st => do
    let st ← genStmt s st
    genStmts rest st

/-- The `for (elif_cond, elif_body) in elif_branches` loop of the `If`
arm: emits the pending label, allocates the next one, lowers condition
and body, and returns the label still pending when the list ends. -/
def genElifs : ElifList → String → String → CodeGen → Except GenErr (String × CodeGen)
  | ElifList.nil, next_label, _, st => .ok (next_label, st)
  | ElifList.cons elif_cond elif_body rest, next_label, end_label, st => do
    let st := emit (next_label ++ ":") st
    let (next', st) := new_label "elif" st
    let st := emit_indent "; elif condition" st
    let st ← genExpr elif_cond st
    let st := emit_indent "cmp rax, 0" st
    let st := emit_indent ("je " ++ next') st
    let st := emit_indent "; elif block" st
    let st ← genStmts elif_body st
    let st := emit_indent ("jmp " ++ end_label) st
    genElifs rest next' end_label st

end

/-- The `matches!(s, Stmt::Let(..))` test of the shallow prologue scan,
as 1 or 0. -/
def isLetStmt : Stmt → Nat
  | Stmt.Let _ _ => 1
  | _ => 0

/-- The shallow scan of `CodeGen::generate`: `Let` statements counted in
the top-level sequence only, no recursion into bodies. -/
def letCountTop : StmtList → Nat
  | StmtList.nil => 0
  | StmtList.cons s rest => isLetStmt s + letCountTop rest

/-- The prologue reservation `((var_count * 8 + 15) / 16) * 16`. -/
def reservedStackSpace (stmts : StmtList) : Nat :=
  (letCountTop stmts * 8 + 15) / 16 * 16

/-- The scaffolding and prologue `CodeGen::generate` emits before the
statement loop: sections, entry label, frame setup, and the conditional
stack reservation sized by the shallow top-level `Let` count. -/
def prologue (stmts : StmtList) : CodeGen :=
  let st := CodeGen.new
  let st := emit "section .data" st
  let st := emit "" st
  let st := emit "section .bss" st
  let st := emit "" st
  let st := emit "section .text" st
  let st := emit "global _start" st
  let st := emit "" st
  let st := emit "_start:" st
  let st := emit_indent "push rbp" st
  let st := emit_indent "mov rbp, rsp" st
  let st :=
    if letCountTop stmts > 0 then
      emit_indent ("sub rsp, " ++ natFmt (reservedStackSpace stmts)) st
    else st
  emit "" st

/-- `CodeGen::generate`: prologue, the statement loop, and the default
exit-0 coda. -/
def generate (stmts : StmtList) : Except GenErr CodeGen := do
  let st ← genStmts stmts (prologue stmts)
  let st := emit "" st
  let st := emit_indent "; default exit"  st
  let st := emit_indent "mov rax, 60" st
  let st := emit_indent "xor rdi, rdi" st
  .ok (emit_indent "syscall" st)

/-- `CodeGen::new().generate(&stmts)` — the program-level entry point. -/
def genProgram (stmts : StmtList) : Except GenErr CodeGen :=
  generate stmts

/-- The output text of a successful generation pass, as its lines. -/
def genLines (stmts : StmtList) : Option (List String) :=
  match genProgram stmts with
  | .ok st => some st.lines
  | .error _ => none

/-- The stdout diagnostics of a successful generation pass. -/
def genDiags (stmts : StmtList) : Option (List String) :=
  match genProgram stmts with
  | .ok st => some st.diags
  | .error _ => none

/-- The final allocation cursor of a successful generation pass. -/
def genFinalOffset (stmts : StmtList) : Option Int :=
  match genProgram stmts with
  | .ok st => some st.stack_offset
  | .error _ => none

/-- Whether the generation pass completes normally. -/
def genOk (stmts : StmtList) : Bool :=
  match genProgram stmts with
  | .ok _ => true
  | .error _ => false

/-! ## Static views of a program used to state the claims -/
mutual

/-- A `While` somewhere in this statement, at any nesting depth. -/
def stmtHasWhile : Stmt → Bool
  | Stmt.Let _ _ => false
  | Stmt.Exit _ => false
  | Stmt.While _ _ => true
  | Stmt.If _ t el eb => stmtsHaveWhile t || elifsHaveWhile el || elseHasWhile eb

/-- A `While` somewhere in this sequence, at any nesting depth. -/
def stmtsHaveWhile : StmtList → Bool
  | StmtList.nil => false
  | StmtList.cons s r => stmtHasWhile s || stmtsHaveWhile r

/-- A `While` somewhere in these elif branches. -/
def elifsHaveWhile : ElifList → Bool
  | ElifList.nil => false
  | ElifList.cons _ b r => stmtsHaveWhile b || elifsHaveWhile r

/-- A `While` somewhere in this else block. -/
def elseHasWhile : ElseBlock → Bool
  | ElseBlock.none => false
  | ElseBlock.some b => stmtsHaveWhile b

end

mutual

/-- All `Let` statements in this statement, nested bodies included. -/
def stmtLetsAll : Stmt → Nat
  | Stmt.Let _ _ => 1
  | Stmt.Exit _ => 0
  | Stmt.While _ b => stmtsLetsAll b
  | Stmt.If _ t el eb => stmtsLetsAll t + elifsLetsAll el + elseLetsAll eb

/-- All `Let` statements in this sequence, nested bodies included. -/
def stmtsLetsAll : StmtList → Nat
  | StmtList.nil => 0
  | StmtList.cons s r => stmtLetsAll s + stmtsLetsAll r

/-- All `Let` statements in these elif branches. -/
def elifsLetsAll : ElifList → Nat
  | ElifList.nil => 0
  | ElifList.cons _ b r => stmtsLetsAll b + elifsLetsAll r

/-- All `Let` statements in this else block. -/
def elseLetsAll : ElseBlock → Nat
  | ElseBlock.none => 0
  | ElseBlock.some b => stmtsLetsAll b

end

/-- `Let` statements strictly inside the nested bodies of one statement. -/
def stmtInnerLets : Stmt → Nat
  | Stmt.Let _ _ => 0
  | Stmt.Exit _ => 0
  | Stmt.While _ b => stmtsLetsAll b
  | Stmt.If _ t el eb => stmtsLetsAll t + elifsLetsAll el + elseLetsAll eb

/-- `Let` statements strictly inside nested bodies of a top-level
sequence: the bindings the shallow prologue scan does not see. -/
def innerLets : StmtList → Nat
  | StmtList.nil => 0
  | StmtList.cons s r => stmtInnerLets s + innerLets r

/-- At least one `Let` sits inside a `while`/`if` body. -/
def hasNestedLet (prog : StmtList) : Bool :=
  innerLets prog > 0

/-- Identifier references of an expression, all bound in `env`;
mirrors the lookups `gen_expr` performs. -/
def exprBound (env : List String) : Expr → Bool
  | Expr.Ident n => env.contains n
  | Expr.Num _ => true
  | Expr.BinOp l _ r => exprBound env r && exprBound env l
  | Expr.UnaryOp _ e => exprBound env e

mutual

/-- The name-set discipline of `gen_stmt`, tracking only which names are
bound: a `Let` checks its initializer against the current set and then
adds its name; `If` threads one flat set through condition, then body,
elif branches and else body in emission order.  The `While` arm, like
the generator's missing arm, refuses. -/
def bindStmt : Stmt → List String → Option (List String)
  | Stmt.Let n e, env => if exprBound env e then some (n :: env) else none
  | Stmt.Exit e, env => if exprBound env e then some env else none
  | Stmt.While _ _, _ => none
  | Stmt.If c t el eb, env =>
    if exprBound env c then do
      let env ← bindStmts t env
      let env ← bindElifs el env
      match eb with
      | ElseBlock.none => some env
      | ElseBlock.some b => bindStmts b env
    else none

/-- Sequential threading of `bindStmt` over a sequence. -/
def bindStmts : StmtList → List String → Option (List String)
  | StmtList.nil, env => some env
  | StmtList.cons s r, env => do
    let env ← bindStmt s env
    bindStmts r env

/-- Sequential threading of `bindStmt` over elif branches. -/
def bindElifs : ElifList → List String → Option (List String)
  | ElifList.nil, env => some env
  | ElifList.cons c b r, env =>
    if exprBound env c then do
      let env ← bindStmts b env
      bindElifs r env
    else none

end

/-- Every identifier reference of the program is preceded by a `Let` of
that name in the generator's emission order, and no `While` occurs. -/
def allBound (prog : StmtList) : Bool :=
  (bindStmts prog []).isSome

/-! ## Core-state preservation of expression lowering -/
/-- Two generator states agreeing on everything except output lines and
stdout diagnostics. -/
def sameCore (a b : CodeGen) : Prop :=
  a.vars = b.vars ∧ a.stack_offset = b.stack_offset ∧ a.label_counter = b.label_counter

/-! ## Binding correspondence (for C6) -/
/-- Whether an `Except` is a normal result. -/
def excOk {e a : Type} : Except e a → Bool
  | .ok _ => true
  | .error _ => false

/-- The symbol table of `st` has exactly the names of `env` as its
domain. -/
def envMatches (env : List String) (st : CodeGen) : Prop :=
  ∀ n, (st.vars n).isSome = env.contains n

/-! ## Slot-allocation freshness (for C8) -/
/-- Every offset in the symbol table sits at or above the allocation
cursor: the invariant that makes each new slot fresh. -/
def cursorInv (st : CodeGen) : Prop :=
  ∀ n off, st.vars n = some off → st.stack_offset ≤ off

/-- The state `gen_stmt` produces for `let x = 5;` from a fresh
generator, spelled out for the C8 witness. -/
def c8LetState : CodeGen :=
  { lines := ["    ; let x = ...", "    mov rax, 5", "    mov [rbp-8], rax", ""],
    vars := fun k => if k = "x" then some (-8) else none,
    stack_offset := -8, label_counter := 0, diags := [] }

/-! ## Shapes of emitted lines (for C9 and C10) -/
/-- Label name as `new_label` renders it. -/
def labelName (p : String) (i : Nat) : String :=
  "." ++ p ++ "_" ++ natFmt i

/-- A label-definition output line, `"{label}:"`. -/
def labelDef (p : String) (i : Nat) : String :=
  labelName p i ++ ":"

/-- A line that defines a label: it starts with the `.` every generated
label name starts with (no other emitted line does). -/
def isLabelLine (l : String) : Bool :=
  match l.data with
  | '.' :: _ => true
  | _ => false

/-- A stack-reservation instruction line `"    sub rsp, ..."`. -/
def isSubRspLine (l : String) : Bool :=
  match l.data with
  | ' ' :: ' ' :: ' ' :: ' ' :: 's' :: 'u' :: 'b' :: ' ' :: 'r' :: 's' :: 'p' :: _ => true
  | _ => false

/-- All label-definition lines in `new` carry a counter value satisfying
`P` (other lines are unconstrained). -/
def LabelsP (P : Nat → Prop) (new : List String) : Prop :=
  ∀ l ∈ new, isLabelLine l = true →
    ∃ p i, (p = "if_end" ∨ p = "elif") ∧ P i ∧ l = labelDef p i

/-- The state a successful generation pass ends in (dummy fresh state on
failure); lets concrete runs be named in closed statements. -/
def genResult (prog : StmtList) : CodeGen :=
  match genProgram prog with
  | .ok st => st
  | .error _ => CodeGen.new

/-- An `if`/`elif`/`elif`/`else` chain (N = 2 elif branches) for
exercising the label allocator. -/
def c9Chain : StmtList :=
  StmtList.cons
    (Stmt.If (Expr.Num 1)
      (StmtList.cons (Stmt.Exit (Expr.Num 1)) StmtList.nil)
      (ElifList.cons (Expr.Num 2) (StmtList.cons (Stmt.Exit (Expr.Num 2)) StmtList.nil)
        (ElifList.cons (Expr.Num 3) (StmtList.cons (Stmt.Exit (Expr.Num 3)) StmtList.nil)
          ElifList.nil))
      (ElseBlock.some (StmtList.cons (Stmt.Exit (Expr.Num 0)) StmtList.nil)))
    StmtList.nil

/-- A one-top-level-`Let` program for exercising the prologue's stack
reservation. -/
def c10Prog : StmtList :=
  StmtList.cons (Stmt.Let "x" (Expr.Num 1))
    (StmtList.cons (Stmt.Exit (Expr.Num 0)) StmtList.nil)

/-- The statement list `exit((-2)*3);` parses to. -/
def c7Prog : StmtList :=
  StmtList.cons
    (Stmt.Exit (Expr.BinOp (Expr.UnaryOp Op.Sub (Expr.Num 2)) Op.Mul (Expr.Num 3)))
    StmtList.nil

theorem digitChar_val_of_lt {d : Nat} (h : d < 10) :
    (Nat.digitChar d).toNat - '0'.toNat = d := by
  interval_cases d <;> decide

theorem foldl_natFmtAux (fuel : Nat) :
    ∀ n a, n < fuel →
      List.foldl (fun x c => x * 10 + (c.toNat - '0'.toNat)) a (natFmtAux fuel n) =
        a * 10 ^ (natFmtAux fuel n).length + n := by
  induction fuel with
  | zero => intro n a h; omega
  | succ f ih =>
    intro n a h
    by_cases hn : n = 0
    · simp [natFmtAux, hn]
    · have hpos : 0 < n := Nat.pos_of_ne_zero hn
      have hdiv : n / 10 < n := Nat.div_lt_self hpos (by norm_num)
      have hf : n / 10 < f := by omega
      simp only [natFmtAux, hn, if_false, List.foldl_append, List.length_append,
        List.foldl_cons, List.foldl_nil, List.length_cons, List.length_nil]
      rw [ih (n / 10) a hf]
      rw [digitChar_val_of_lt (Nat.mod_lt n (by norm_num))]
      have heq : (a * 10 ^ (natFmtAux f (n / 10)).length + n / 10) * 10 + n % 10 =
          a * (10 ^ (natFmtAux f (n / 10)).length * 10) + (n / 10 * 10 + n % 10) := by ring
      rw [heq, show (0 : Nat) + 1 = 1 from rfl, pow_succ]
      have hnm : n / 10 * 10 + n % 10 = n := by omega
      rw [hnm]

theorem decVal_natFmtAux {n : Nat} : decVal (natFmtAux (n + 1) n) = n := by
  have := foldl_natFmtAux (n + 1) n 0 (Nat.lt_succ_self n)
  simpa [decVal] using this

/-- `natFmt` is injective: distinct counters render to distinct strings. -/
theorem natFmt_injective : Function.Injective natFmt := by
  intro m n h
  by_cases hm : m = 0 <;> by_cases hn : n = 0
  · omega
  · exfalso
    simp only [natFmt, hm, hn, if_true, if_false] at h
    have hdata : ("0" : String).data = (String.mk (natFmtAux (n + 1) n)).data := by rw [h]
    have hval := congrArg decVal hdata
    have h1 : decVal (("0" : String).data) = 0 := by decide
    have h2 : decVal ((String.mk (natFmtAux (n + 1) n)).data) = n := decVal_natFmtAux
    omega
  · exfalso
    simp only [natFmt, hm, hn, if_true, if_false] at h
    have hdata : (String.mk (natFmtAux (m + 1) m)).data = ("0" : String).data := by rw [h]
    have hval := congrArg decVal hdata
    have h1 : decVal (("0" : String).data) = 0 := by decide
    have h2 : decVal ((String.mk (natFmtAux (m + 1) m)).data) = m := decVal_natFmtAux
    omega
  · simp only [natFmt, hm, hn, if_false] at h
    have hdata : natFmtAux (m + 1) m = natFmtAux (n + 1) n := by
      have := congrArg String.data h
      simpa using this
    have := decVal_natFmtAux (n := m)
    rw [hdata, decVal_natFmtAux] at this
    omega

/-! ## Generic `Except` plumbing -/
theorem exc_bind_ok {e a b : Type} (v : a) (f : a → Except e b) :
    (Except.ok v >>= f) = f v := rfl

theorem exc_bind_err {e a b : Type} (m : e) (f : a → Except e b) :
    ((Except.error m : Except e a) >>= f) = .error m := rfl

theorem exc_bind_ok_iff {e a b : Type} (x : Except e a) (f : a → Except e b) (v : b) :
    (x >>= f) = .ok v ↔ ∃ u, x = .ok u ∧ f u = .ok v := by
  cases x with
  | error m => rw [exc_bind_err]; simp
  | ok u => rw [exc_bind_ok]; simp

theorem exc_bind_err_iff {e a b : Type} (x : Except e a) (f : a → Except e b) (m : e) :
    (x >>= f) = .error m ↔ x = .error m ∨ ∃ u, x = .ok u ∧ f u = .error m := by
  cases x with
  | error m' => rw [exc_bind_err]; simp
  | ok u => rw [exc_bind_ok]; simp

theorem opt_bind_ok {a b : Type} (v : a) (f : a → Option b) :
    ((some v : Option a) >>= f) = f v := rfl

/-! ## C1: the `>=` / `<=` lookahead does not consume the `=` -/
/-- C1: the claim states that `>` immediately followed by `=` lexes to
the single token `GreaterEqual` consuming both characters, as `==` does.
In the source the `'>'` and `'<'` arms upgrade the token but never
advance past the `'='`, so `">="` lexes to `[GreaterEqual, Equal]` (and
`"<="` to `[LessEqual, Equal]`), while `"=="` does lex to the single
`EqualEqual`; downstream, `exit(1>=1);` consequently fails to parse. -/
theorem c1_relational_lookahead_unconsumed :
    tokenizeStr ">=" = some [Token.GreaterEqual, Token.Equal] ∧
    tokenizeStr "<=" = some [Token.LessEqual, Token.Equal] ∧
    tokenizeStr "==" = some [Token.EqualEqual] ∧
    frontend "exit(1>=1);" = none := by
  refine ⟨rfl, rfl, rfl, rfl⟩

/-! ## C4: a non-`Sub` unary operator is not rejected -/
/-- C4: the claim states that lowering a unary node whose operator is
not `Sub` rejects it as an internal-consistency failure rather than
completing normally.  In the source that arm prints `Unary Operator
error` to stdout and falls through: for `exit(+5);` — a `UnaryOp Add`
node the parser really produces — generation completes normally, the
diagnostic goes to stdout only, and the emitted exit sequence uses the
operand's value with no negation or rejection. -/
theorem c4_unary_nonsub_falls_through :
    genOk (StmtList.ofList [Stmt.Exit (Expr.UnaryOp Op.Add (Expr.Num 5))]) = true ∧
    genDiags (StmtList.ofList [Stmt.Exit (Expr.UnaryOp Op.Add (Expr.Num 5))]) =
      some ["Unary Operator error"] ∧
    genLines (StmtList.ofList [Stmt.Exit (Expr.UnaryOp Op.Add (Expr.Num 5))]) =
      some ["section .data", "", "section .bss", "", "section .text", "global _start", "",
        "_start:", "    push rbp", "    mov rbp, rsp", "",
        "    ; exit", "    mov rax, 5", "    mov rdi, rax", "    mov rax, 60", "    syscall", "",
        "", "    ; default exit", "    mov rax, 60", "    xor rdi, rdi", "    syscall"] ∧
    frontend "exit(+5);" =
      some (StmtList.ofList [Stmt.Exit (Expr.UnaryOp Op.Add (Expr.Num 5))]) := by
  refine ⟨rfl, rfl, rfl, rfl⟩

/-! ## C2: `While` has no defined lowering -/
mutual

theorem genStmt_ok_noWhile : ∀ s st st', genStmt s st = .ok st' → stmtHasWhile s = false
  | Stmt.Let n e, st, st', _ => by rw [stmtHasWhile.eq_1]
  | Stmt.Exit e, st, st', _ => by rw [stmtHasWhile.eq_2]
  | Stmt.While c b, st, st', h => by rw [genStmt.eq_3] at h; exact absurd h (by simp)
  | Stmt.If cond thenB elifs elseB, st, st', h => by
    rw [stmtHasWhile.eq_4]
    simp only [genStmt.eq_4, new_label] at h
    rw [exc_bind_ok_iff] at h
    obtain ⟨st2, hcond, h⟩ := h
    cases elifs with
    | nil =>
      cases elseB with
      | none =>
        simp only at h
        rw [exc_bind_ok_iff] at h
        obtain ⟨st3, hthen, h⟩ := h
        have hT := genStmts_ok_noWhile thenB _ _ hthen
        simp [hT, elifsHaveWhile, elseHasWhile]
      | some b =>
        simp only at h
        rw [exc_bind_ok_iff] at h
        obtain ⟨st3, hthen, h⟩ := h
        rw [exc_bind_ok_iff] at h
        obtain ⟨p, helifs, h⟩ := h
        obtain ⟨nf, st4⟩ := p
        simp only at h
        rw [exc_bind_ok_iff] at h
        obtain ⟨st5, helse, h⟩ := h
        have hT := genStmts_ok_noWhile thenB _ _ hthen
        have hE := genStmts_ok_noWhile b _ _ helse
        simp [hT, hE, elifsHaveWhile, elseHasWhile]
    | cons ec eb' er =>
      cases elseB with
      | none =>
        simp only at h
        rw [exc_bind_ok_iff] at h
        obtain ⟨st3, hthen, h⟩ := h
        rw [exc_bind_ok_iff] at h
        obtain ⟨p, helifs, h⟩ := h
        obtain ⟨nf, st4⟩ := p
        simp only at h
        have hT := genStmts_ok_noWhile thenB _ _ hthen
        have hL := genElifs_ok_noWhile (ElifList.cons ec eb' er) _ _ _ _ helifs
        simp [hT, hL, elseHasWhile]
      | some b =>
        simp only at h
        rw [exc_bind_ok_iff] at h
        obtain ⟨st3, hthen, h⟩ := h
        rw [exc_bind_ok_iff] at h
        obtain ⟨p, helifs, h⟩ := h
        obtain ⟨nf, st4⟩ := p
        simp only at h
        rw [exc_bind_ok_iff] at h
        obtain ⟨st5, helse, h⟩ := h
        have hT := genStmts_ok_noWhile thenB _ _ hthen
        have hL := genElifs_ok_noWhile (ElifList.cons ec eb' er) _ _ _ _ helifs
        have hE := genStmts_ok_noWhile b _ _ helse
        simp [hT, hL, hE, elseHasWhile]
termination_by s => sizeOf s

theorem genStmts_ok_noWhile : ∀ l st st', genStmts l st = .ok st' → stmtsHaveWhile l = false
  | StmtList.nil, st, st', _ => by rw [stmtsHaveWhile.eq_1]
  | StmtList.cons s r, st, st', h => by
    rw [genStmts.eq_2] at h
    rw [exc_bind_ok_iff] at h
    obtain ⟨st2, hs, hr⟩ := h
    have h1 := genStmt_ok_noWhile s _ _ hs
    have h2 := genStmts_ok_noWhile r _ _ hr
    rw [stmtsHaveWhile.eq_2]
    simp [h1, h2]
termination_by l => sizeOf l

theorem genElifs_ok_noWhile :
    ∀ el nl endl st p, genElifs el nl endl st = .ok p → elifsHaveWhile el = false
  | ElifList.nil, nl, endl, st, p, _ => by rw [elifsHaveWhile.eq_1]
  | ElifList.cons c b r, nl, endl, st, p, h => by
    simp only [genElifs.eq_2, new_label] at h
    rw [exc_bind_ok_iff] at h
    obtain ⟨st2, hcond, h⟩ := h
    rw [exc_bind_ok_iff] at h
    obtain ⟨st3, hbody, h⟩ := h
    have h1 := genStmts_ok_noWhile b _ _ hbody
    have h2 := genElifs_ok_noWhile r _ _ _ _ h
    rw [elifsHaveWhile.eq_2]
    simp [h1, h2]
termination_by el => sizeOf el

end

/-- C2: `Stmt::While` has no arm in the code generator's statement
dispatch: lowering a `While` is not defined by the source (embedded as
the dedicated error value), and every program containing a `While` at
any nesting depth has no normal code-generation result. -/
theorem c2_while_lowering_undefined :
    (∀ cond body st, genStmt (Stmt.While cond body) st = .error GenErr.undefinedWhile) ∧
    (∀ prog, stmtsHaveWhile prog = true → ∃ e, genProgram prog = .error e) := by
  constructor
  · intro cond body st
    rw [genStmt.eq_3]
  · intro prog hW
    cases hres : genProgram prog with
    | error e => exact ⟨e, rfl⟩
    | ok st' =>
      exfalso
      simp only [genProgram, generate] at hres
      rw [exc_bind_ok_iff] at hres
      obtain ⟨st2, hgen, _⟩ := hres
      have hF := genStmts_ok_noWhile prog _ _ hgen
      rw [hF] at hW
      exact absurd hW (by simp)

/-- C2, witnessed at the one-statement program `while (1) { }`. -/
theorem c2_while_lowering_undefined_witness :
    genStmt (Stmt.While (Expr.Num 1) StmtList.nil) CodeGen.new = .error GenErr.undefinedWhile ∧
    ∃ e, genProgram (StmtList.ofList [Stmt.While (Expr.Num 1) StmtList.nil]) = .error e :=
  ⟨c2_while_lowering_undefined.1 _ _ _,
   c2_while_lowering_undefined.2 _ (by rfl)⟩

theorem sameCore_refl (a : CodeGen) : sameCore a a := ⟨rfl, rfl, rfl⟩

theorem sameCore_trans {a b c : CodeGen} (h1 : sameCore a b) (h2 : sameCore b c) :
    sameCore a c :=
  ⟨h1.1.trans h2.1, h1.2.1.trans h2.2.1, h1.2.2.trans h2.2.2⟩

theorem sameCore_emit (l : String) (st : CodeGen) : sameCore (emit l st) st :=
  ⟨rfl, rfl, rfl⟩

theorem sameCore_emit_indent (l : String) (st : CodeGen) :
    sameCore (emit_indent l st) st :=
  ⟨rfl, rfl, rfl⟩

theorem sameCore_genOpEmit (op : Op) (st : CodeGen) : sameCore (genOpEmit op st) st := by
  cases op <;> exact ⟨rfl, rfl, rfl⟩

/-- `gen_expr` touches only the output (and possibly stdout): symbol
table, allocation cursor and label counter pass through unchanged. -/
theorem genExpr_core : ∀ e st st', genExpr e st = .ok st' → sameCore st' st
  | Expr.Num n, st, st', h => by
    rw [genExpr.eq_1] at h
    cases h
    exact sameCore_emit_indent _ _
  | Expr.Ident name, st, st', h => by
    rw [genExpr.eq_2] at h
    cases hv : st.vars name with
    | none => rw [hv] at h; exact absurd h (by simp)
    | some off =>
      rw [hv] at h
      cases h
      exact sameCore_emit_indent _ _
  | Expr.BinOp l op r, st, st', h => by
    rw [genExpr.eq_3] at h
    rw [exc_bind_ok_iff] at h
    obtain ⟨st1, hr, h⟩ := h
    rw [exc_bind_ok_iff] at h
    obtain ⟨st2, hl, h⟩ := h
    cases h
    have c1 := genExpr_core r st st1 hr
    have c2 := genExpr_core l (emit_indent "push rax" st1) st2 hl
    exact sameCore_trans (sameCore_genOpEmit op _)
      (sameCore_trans (sameCore_emit_indent _ _)
        (sameCore_trans c2 (sameCore_trans (sameCore_emit_indent _ _) c1)))
  | Expr.UnaryOp op e, st, st', h => by
    rw [genExpr.eq_4] at h
    rw [exc_bind_ok_iff] at h
    obtain ⟨st1, he, h⟩ := h
    have c1 := genExpr_core e st st1 he
    cases op <;> simp only at h <;> cases h <;>
      first
        | exact sameCore_trans (sameCore_emit_indent _ _) c1
        | exact sameCore_trans ⟨rfl, rfl, rfl⟩ c1

/-! ## Allocation-cursor accounting (for C3 and C8) -/
mutual

/-- A successful `gen_stmt` moves the allocation cursor down by exactly
one word per `Let` statement lowered, nested bodies included. -/
theorem genStmt_offset : ∀ s st st', genStmt s st = .ok st' →
    st'.stack_offset = st.stack_offset - 8 * stmtLetsAll s
  | Stmt.Let n e, st, st', h => by
    rw [genStmt.eq_1] at h
    rw [exc_bind_ok_iff] at h
    obtain ⟨st1, he, h⟩ := h
    cases h
    have c1 := genExpr_core e _ _ he
    rw [stmtLetsAll.eq_1]
    simp only [emit, emit_indent]
    have : st1.stack_offset = st.stack_offset := c1.2.1.trans (sameCore_emit_indent _ _).2.1
    omega
  | Stmt.Exit e, st, st', h => by
    rw [genStmt.eq_2] at h
    rw [exc_bind_ok_iff] at h
    obtain ⟨st1, he, h⟩ := h
    cases h
    have c1 := genExpr_core e _ _ he
    rw [stmtLetsAll.eq_2]
    simp only [emit, emit_indent]
    have : st1.stack_offset = st.stack_offset := c1.2.1.trans (sameCore_emit_indent _ _).2.1
    omega
  | Stmt.While c b, st, st', h => by
    rw [genStmt.eq_3] at h
    exact absurd h (by simp)
  | Stmt.If cond thenB elifs elseB, st, st', h => by
    rw [stmtLetsAll.eq_4]
    simp only [genStmt.eq_4, new_label] at h
    rw [exc_bind_ok_iff] at h
    obtain ⟨st2, hcond, h⟩ := h
    have hc2 : st2.stack_offset = st.stack_offset := by
      have := genExpr_core cond _ _ hcond
      exact this.2.1
    cases elifs with
    | nil =>
      cases elseB with
      | none =>
        simp only at h
        rw [exc_bind_ok_iff] at h
        obtain ⟨st3, hthen, h⟩ := h
        cases h
        have hT := genStmts_offset thenB _ _ hthen
        rw [elifsLetsAll.eq_1, elseLetsAll.eq_1]
        simp only [emit, emit_indent] at hT ⊢
        omega
      | some b =>
        simp only at h
        rw [exc_bind_ok_iff] at h
        obtain ⟨st3, hthen, h⟩ := h
        rw [exc_bind_ok_iff] at h
        obtain ⟨p, helifs, h⟩ := h
        obtain ⟨nf, st4⟩ := p
        simp only at h
        rw [exc_bind_ok_iff] at h
        obtain ⟨st5, helse, h⟩ := h
        cases h
        have hT := genStmts_offset thenB _ _ hthen
        have hL := genElifs_offset ElifList.nil _ _ _ _ _ helifs
        have hE := genStmts_offset b _ _ helse
        rw [elifsLetsAll.eq_1] at hL
        rw [elifsLetsAll.eq_1, elseLetsAll.eq_2]
        simp only [emit, emit_indent] at hT hL hE ⊢
        omega
    | cons ec eb' er =>
      cases elseB with
      | none =>
        simp only at h
        rw [exc_bind_ok_iff] at h
        obtain ⟨st3, hthen, h⟩ := h
        rw [exc_bind_ok_iff] at h
        obtain ⟨p, helifs, h⟩ := h
        obtain ⟨nf, st4⟩ := p
        simp only at h
        cases h
        have hT := genStmts_offset thenB _ _ hthen
        have hL := genElifs_offset (ElifList.cons ec eb' er) _ _ _ _ _ helifs
        rw [elseLetsAll.eq_1]
        simp only [emit, emit_indent] at hT hL ⊢
        omega
      | some b =>
        simp only at h
        rw [exc_bind_ok_iff] at h
        obtain ⟨st3, hthen, h⟩ := h
        rw [exc_bind_ok_iff] at h
        obtain ⟨p, helifs, h⟩ := h
        obtain ⟨nf, st4⟩ := p
        simp only at h
        rw [exc_bind_ok_iff] at h
        obtain ⟨st5, helse, h⟩ := h
        cases h
        have hT := genStmts_offset thenB _ _ hthen
        have hL := genElifs_offset (ElifList.cons ec eb' er) _ _ _ _ _ helifs
        have hE := genStmts_offset b _ _ helse
        rw [elseLetsAll.eq_2]
        simp only [emit, emit_indent] at hT hL hE ⊢
        omega
termination_by s => sizeOf s

/-- Sequence version of `genStmt_offset`. -/
theorem genStmts_offset : ∀ l st st', genStmts l st = .ok st' →
    st'.stack_offset = st.stack_offset - 8 * stmtsLetsAll l
  | StmtList.nil, st, st', h => by
    rw [genStmts.eq_1] at h
    cases h
    rw [stmtsLetsAll.eq_1]
    omega
  | StmtList.cons s r, st, st', h => by
    rw [genStmts.eq_2] at h
    rw [exc_bind_ok_iff] at h
    obtain ⟨st2, hs, hr⟩ := h
    have h1 := genStmt_offset s _ _ hs
    have h2 := genStmts_offset r _ _ hr
    rw [stmtsLetsAll.eq_2]
    omega
termination_by l => sizeOf l

/-- Elif-loop version of `genStmt_offset`. -/
theorem genElifs_offset : ∀ el nl endl st nf st',
    genElifs el nl endl st = .ok (nf, st') →
    st'.stack_offset = st.stack_offset - 8 * elifsLetsAll el
  | ElifList.nil, nl, endl, st, nf, st', h => by
    rw [genElifs.eq_1] at h
    cases h
    rw [elifsLetsAll.eq_1]
    omega
  | ElifList.cons c b r, nl, endl, st, nf, st', h => by
    simp only [genElifs.eq_2, new_label] at h
    rw [exc_bind_ok_iff] at h
    obtain ⟨st2, hcond, h⟩ := h
    rw [exc_bind_ok_iff] at h
    obtain ⟨st3, hbody, h⟩ := h
    have hc := (genExpr_core c _ _ hcond).2.1
    have h1 := genStmts_offset b _ _ hbody
    have h2 := genElifs_offset r _ _ _ _ _ h
    rw [elifsLetsAll.eq_2]
    simp only [emit, emit_indent] at hc h1 h2 ⊢
    omega
termination_by el => sizeOf el

end

/-! ## Shallow versus total `Let` counts (for C3) -/
theorem stmtLetsAll_split (s : Stmt) : stmtLetsAll s = isLetStmt s + stmtInnerLets s := by
  cases s with
  | Let n e => rw [stmtLetsAll.eq_1]; simp [isLetStmt, stmtInnerLets]
  | Exit e => rw [stmtLetsAll.eq_2]; simp [isLetStmt, stmtInnerLets]
  | While c b => rw [stmtLetsAll.eq_3]; simp [isLetStmt, stmtInnerLets]
  | If c t el eb => rw [stmtLetsAll.eq_4]; simp [isLetStmt, stmtInnerLets]

/-- The total `Let` count splits into the shallow top-level count plus
the nested count the prologue scan does not see. -/
theorem stmtsLetsAll_split : ∀ l, stmtsLetsAll l = letCountTop l + innerLets l
  | StmtList.nil => by
    rw [stmtsLetsAll.eq_1, letCountTop.eq_1, innerLets.eq_1]
  | StmtList.cons s r => by
    have ih := stmtsLetsAll_split r
    rw [stmtsLetsAll.eq_2, letCountTop.eq_2, innerLets.eq_2, stmtLetsAll_split s]
    omega

/-! ## Projection helpers for the prologue and the emit primitives -/
@[simp] theorem emit_vars (l : String) (st : CodeGen) : (emit l st).vars = st.vars := rfl

@[simp] theorem emit_stack_offset (l : String) (st : CodeGen) :
    (emit l st).stack_offset = st.stack_offset := rfl

@[simp] theorem emit_label_counter (l : String) (st : CodeGen) :
    (emit l st).label_counter = st.label_counter := rfl

@[simp] theorem emit_lines (l : String) (st : CodeGen) :
    (emit l st).lines = st.lines ++ [l] := rfl

@[simp] theorem emit_indent_vars (l : String) (st : CodeGen) :
    (emit_indent l st).vars = st.vars := rfl

@[simp] theorem emit_indent_stack_offset (l : String) (st : CodeGen) :
    (emit_indent l st).stack_offset = st.stack_offset := rfl

@[simp] theorem emit_indent_label_counter (l : String) (st : CodeGen) :
    (emit_indent l st).label_counter = st.label_counter := rfl

@[simp] theorem emit_indent_lines (l : String) (st : CodeGen) :
    (emit_indent l st).lines = st.lines ++ ["    " ++ l] := rfl

@[simp] theorem prologue_vars (stmts : StmtList) : (prologue stmts).vars = fun _ => none := by
  rw [prologue]; split <;> rfl

@[simp] theorem prologue_stack_offset (stmts : StmtList) :
    (prologue stmts).stack_offset = 0 := by
  rw [prologue]; split <;> rfl

@[simp] theorem prologue_label_counter (stmts : StmtList) :
    (prologue stmts).label_counter = 0 := by
  rw [prologue]; split <;> rfl

theorem prologue_lines (stmts : StmtList) :
    (prologue stmts).lines =
      ["section .data", "", "section .bss", "", "section .text", "global _start", "",
        "_start:", "    push rbp", "    mov rbp, rsp"] ++
      (if letCountTop stmts > 0 then
        ["    sub rsp, " ++ natFmt (reservedStackSpace stmts)] else []) ++ [""] := by
  rw [prologue]; split <;> rfl

/-- A successful whole-program pass leaves the cursor at minus eight
bytes per `Let` lowered anywhere in the tree. -/
theorem generate_offset (prog : StmtList) (st' : CodeGen)
    (h : genProgram prog = .ok st') :
    st'.stack_offset = -(8 * (stmtsLetsAll prog : Int)) := by
  simp only [genProgram, generate] at h
  rw [exc_bind_ok_iff] at h
  obtain ⟨st2, hgen, h⟩ := h
  cases h
  have h1 := genStmts_offset prog _ _ hgen
  simp only [prologue_stack_offset] at h1
  simp only [emit, emit_indent]
  omega

/-! ## C3: shallow reservation versus nested allocation -/
/-- C3, counterexample to the claim as stated: for
`let x = 1; if (1) { let y = 2; }` the prologue reserves 16 bytes (one
top-level `Let`, rounded up to the 16-byte ABI alignment) while the pass
allocates two 8-byte slots, ending with the cursor at -16 — so the
reserved frame size is *not* smaller than the 8 bytes-per-slot total the
pass allocates, contradicting "accounts for fewer slots than the
generation pass allocates" for this program with a nested `Let`. -/
theorem c3_reservation_covers_nested_cex :
    hasNestedLet (StmtList.ofList [Stmt.Let "x" (Expr.Num 1),
      Stmt.If (Expr.Num 1) (StmtList.ofList [Stmt.Let "y" (Expr.Num 2)])
        ElifList.nil ElseBlock.none]) = true ∧
    reservedStackSpace (StmtList.ofList [Stmt.Let "x" (Expr.Num 1),
      Stmt.If (Expr.Num 1) (StmtList.ofList [Stmt.Let "y" (Expr.Num 2)])
        ElifList.nil ElseBlock.none]) = 16 ∧
    stmtsLetsAll (StmtList.ofList [Stmt.Let "x" (Expr.Num 1),
      Stmt.If (Expr.Num 1) (StmtList.ofList [Stmt.Let "y" (Expr.Num 2)])
        ElifList.nil ElseBlock.none]) = 2 ∧
    genFinalOffset (StmtList.ofList [Stmt.Let "x" (Expr.Num 1),
      Stmt.If (Expr.Num 1) (StmtList.ofList [Stmt.Let "y" (Expr.Num 2)])
        ElifList.nil ElseBlock.none]) = some (-16) ∧
    ¬(reservedStackSpace (StmtList.ofList [Stmt.Let "x" (Expr.Num 1),
      Stmt.If (Expr.Num 1) (StmtList.ofList [Stmt.Let "y" (Expr.Num 2)])
        ElifList.nil ElseBlock.none]) <
      8 * stmtsLetsAll (StmtList.ofList [Stmt.Let "x" (Expr.Num 1),
        Stmt.If (Expr.Num 1) (StmtList.ofList [Stmt.Let "y" (Expr.Num 2)])
          ElifList.nil ElseBlock.none])) := by
  refine ⟨by decide, by decide, by decide, by decide, by decide⟩

/-- C3 amended: the prologue reservation is computed from the shallow
top-level `Let` count only, while nested `Let` statements decrement the
same cursor during lowering; hence for every program with a `Let` inside
a nested body the *slot count the reservation is computed from* is
strictly smaller than the number of slots the pass allocates (the final
cursor sits at minus eight bytes per `Let` anywhere in the tree).  The
reserved byte count itself can still cover the extra slots when the
16-byte rounding absorbs them, as the counterexample shows. -/
theorem c3_shallow_count_undercounts (prog : StmtList)
    (h : hasNestedLet prog = true) :
    letCountTop prog < stmtsLetsAll prog ∧
    reservedStackSpace prog = (letCountTop prog * 8 + 15) / 16 * 16 ∧
    ∀ st', genProgram prog = .ok st' →
      st'.stack_offset = -(8 * (stmtsLetsAll prog : Int)) := by
  refine ⟨?_, rfl, fun st' hgen => generate_offset prog st' hgen⟩
  have hs := stmtsLetsAll_split prog
  simp only [hasNestedLet, gt_iff_lt, decide_eq_true_eq] at h
  omega

/-- C3 amended, witnessed at `let x = 1; if (1) { let y = 2; }`. -/
theorem c3_shallow_count_undercounts_witness :
    hasNestedLet (StmtList.ofList [Stmt.Let "x" (Expr.Num 1),
      Stmt.If (Expr.Num 1) (StmtList.ofList [Stmt.Let "y" (Expr.Num 2)])
        ElifList.nil ElseBlock.none]) = true ∧
    (letCountTop (StmtList.ofList [Stmt.Let "x" (Expr.Num 1),
      Stmt.If (Expr.Num 1) (StmtList.ofList [Stmt.Let "y" (Expr.Num 2)])
        ElifList.nil ElseBlock.none]) <
      stmtsLetsAll (StmtList.ofList [Stmt.Let "x" (Expr.Num 1),
        Stmt.If (Expr.Num 1) (StmtList.ofList [Stmt.Let "y" (Expr.Num 2)])
          ElifList.nil ElseBlock.none]) ∧
     reservedStackSpace (StmtList.ofList [Stmt.Let "x" (Expr.Num 1),
       Stmt.If (Expr.Num 1) (StmtList.ofList [Stmt.Let "y" (Expr.Num 2)])
         ElifList.nil ElseBlock.none]) =
       (letCountTop (StmtList.ofList [Stmt.Let "x" (Expr.Num 1),
         Stmt.If (Expr.Num 1) (StmtList.ofList [Stmt.Let "y" (Expr.Num 2)])
           ElifList.nil ElseBlock.none]) * 8 + 15) / 16 * 16 ∧
     ∀ st', genProgram (StmtList.ofList [Stmt.Let "x" (Expr.Num 1),
       Stmt.If (Expr.Num 1) (StmtList.ofList [Stmt.Let "y" (Expr.Num 2)])
         ElifList.nil ElseBlock.none]) = .ok st' →
       st'.stack_offset = -(8 * (stmtsLetsAll (StmtList.ofList [Stmt.Let "x" (Expr.Num 1),
         Stmt.If (Expr.Num 1) (StmtList.ofList [Stmt.Let "y" (Expr.Num 2)])
           ElifList.nil ElseBlock.none]) : Int))) :=
  ⟨by decide, c3_shallow_count_undercounts _ (by decide)⟩

theorem excOk_true_iff {e a : Type} (x : Except e a) :
    excOk x = true ↔ ∃ v, x = .ok v := by
  cases x <;> simp [excOk]

theorem excOk_false_iff {e a : Type} (x : Except e a) :
    excOk x = false ↔ ∃ er, x = .error er := by
  cases x <;> simp [excOk]

theorem envMatches_of_vars_eq {env : List String} {st st' : CodeGen}
    (h : st'.vars = st.vars) (hm : envMatches env st) : envMatches env st' := by
  intro n; rw [h]; exact hm n

theorem envMatches_emit {env : List String} {st : CodeGen} (l : String)
    (hm : envMatches env st) : envMatches env (emit l st) := hm

theorem envMatches_emit_indent {env : List String} {st : CodeGen} (l : String)
    (hm : envMatches env st) : envMatches env (emit_indent l st) := hm

/-- An expression lowers successfully exactly when all the identifiers
it references are in the current symbol table's domain. -/
theorem genExpr_ok_iff : ∀ e env st, envMatches env st →
    excOk (genExpr e st) = exprBound env e
  | Expr.Num n, env, st, hm => by
    rw [genExpr.eq_1, exprBound.eq_2]
    rfl
  | Expr.Ident name, env, st, hm => by
    rw [genExpr.eq_2, exprBound.eq_1]
    have hc := hm name
    cases hv : st.vars name with
    | none =>
      rw [hv] at hc
      simp only [Option.isSome] at hc
      rw [← hc]
      rfl
    | some off =>
      rw [hv] at hc
      simp only [Option.isSome] at hc
      rw [← hc]
      rfl
  | Expr.BinOp l op r, env, st, hm => by
    rw [genExpr.eq_3, exprBound.eq_3]
    cases hr : genExpr r st with
    | error er =>
      have ihr := genExpr_ok_iff r env st hm
      rw [hr] at ihr
      simp only [excOk] at ihr
      simp only [hr, exc_bind_err, excOk, ← ihr, Bool.false_and]
    | ok st1 =>
      have ihr := genExpr_ok_iff r env st hm
      rw [hr] at ihr
      simp only [excOk] at ihr
      have hm1 : envMatches env (emit_indent "push rax" st1) :=
        envMatches_emit_indent _
          (envMatches_of_vars_eq (genExpr_core r st st1 hr).1 hm)
      have ihl := genExpr_ok_iff l env _ hm1
      cases hl : genExpr l (emit_indent "push rax" st1) with
      | error er =>
        rw [hl] at ihl
        simp only [excOk] at ihl
        simp only [hr, exc_bind_ok, hl, exc_bind_err, excOk, ← ihl, ← ihr,
          Bool.true_and, Bool.and_false]
      | ok st2 =>
        rw [hl] at ihl
        simp only [excOk] at ihl
        simp only [hr, exc_bind_ok, hl, excOk, ← ihl, ← ihr, Bool.true_and]
  | Expr.UnaryOp op e, env, st, hm => by
    rw [genExpr.eq_4, exprBound.eq_4]
    cases he : genExpr e st with
    | error er =>
      have ihe := genExpr_ok_iff e env st hm
      rw [he] at ihe
      simp only [excOk] at ihe
      simp only [he, exc_bind_err, excOk, ← ihe]
    | ok st1 =>
      have ihe := genExpr_ok_iff e env st hm
      rw [he] at ihe
      simp only [excOk] at ihe
      simp only [he, exc_bind_ok, ← ihe]
      cases op <;> rfl

theorem opt_bind_none {a b : Type} (f : a → Option b) :
    ((none : Option a) >>= f) = none := rfl

theorem genExpr_ok_of_bound {e : Expr} {env : List String} {st : CodeGen}
    (hm : envMatches env st) (hb : exprBound env e = true) :
    ∃ st', genExpr e st = .ok st' ∧ envMatches env st' := by
  have h := genExpr_ok_iff e env st hm
  rw [hb, excOk_true_iff] at h
  obtain ⟨st', hst⟩ := h
  exact ⟨st', hst, envMatches_of_vars_eq (genExpr_core e st st' hst).1 hm⟩

theorem genExpr_err_of_unbound {e : Expr} {env : List String} {st : CodeGen}
    (hm : envMatches env st) (hb : exprBound env e = false) :
    ∃ er, genExpr e st = .error er := by
  have h := genExpr_ok_iff e env st hm
  rw [hb, excOk_false_iff] at h
  exact h

mutual

/-- One statement: the generator succeeds exactly when the name-set
discipline does, and on success the symbol table's domain is the updated
name set. -/
theorem genStmt_bind : ∀ s env st, envMatches env st →
    (∀ env', bindStmt s env = some env' →
      ∃ st', genStmt s st = .ok st' ∧ envMatches env' st') ∧
    (bindStmt s env = none → ∃ er, genStmt s st = .error er)
  | Stmt.Let n e, env, st, hm => by
    rw [genStmt.eq_1, bindStmt.eq_1]
    by_cases hb : exprBound env e = true
    · obtain ⟨st1, he, hm1⟩ :=
        genExpr_ok_of_bound (e := e) (envMatches_emit_indent _ hm) hb
      constructor
      · intro env' henv
        rw [hb] at henv
        simp only [if_true] at henv
        cases henv
        refine ⟨_, by rw [he, exc_bind_ok], ?_⟩
        intro k
        simp only [emit, emit_indent]
        by_cases hk : k = n
        · subst hk
          simp [List.contains_cons]
        · simp only [hk, if_false]
          have hv := hm1 k
          simp only [emit_indent_vars] at hv
          rw [hv]
          simp [List.contains_cons, hk]
      · intro hnone
        rw [hb] at hnone
        simp at hnone
    · rw [Bool.not_eq_true] at hb
      obtain ⟨er, he⟩ := genExpr_err_of_unbound (e := e) (envMatches_emit_indent _ hm) hb
      constructor
      · intro env' henv
        rw [hb] at henv
        simp at henv
      · intro _
        exact ⟨er, by rw [he, exc_bind_err]⟩
  | Stmt.Exit e, env, st, hm => by
    rw [genStmt.eq_2, bindStmt.eq_2]
    by_cases hb : exprBound env e = true
    · obtain ⟨st1, he, hm1⟩ :=
        genExpr_ok_of_bound (e := e) (envMatches_emit_indent _ hm) hb
      constructor
      · intro env' henv
        rw [hb] at henv
        simp only [if_true] at henv
        cases henv
        refine ⟨_, by rw [he, exc_bind_ok], ?_⟩
        intro k
        simp only [emit, emit_indent]
        have hv := hm1 k
        simp only [emit_indent_vars] at hv
        exact hv
      · intro hnone
        rw [hb] at hnone
        simp at hnone
    · rw [Bool.not_eq_true] at hb
      obtain ⟨er, he⟩ := genExpr_err_of_unbound (e := e) (envMatches_emit_indent _ hm) hb
      constructor
      · intro env' henv
        rw [hb] at henv
        simp at henv
      · intro _
        exact ⟨er, by rw [he, exc_bind_err]⟩
  | Stmt.While c b, env, st, hm => by
    rw [genStmt.eq_3, bindStmt.eq_3]
    constructor
    · intro env' henv
      exact absurd henv (by simp)
    · intro _
      exact ⟨GenErr.undefinedWhile, rfl⟩
  | Stmt.If c t el eb, env, st, hm => by
    rw [bindStmt.eq_4]
    simp only [genStmt.eq_4, new_label]
    by_cases hc : exprBound env c = true
    · have hm1 : envMatches env (emit_indent "; if condition"
          { st with label_counter := st.label_counter + 1 }) := fun k => hm k
      obtain ⟨st2, hcond, hm2⟩ := genExpr_ok_of_bound (e := c) hm1 hc
      rw [hc]
      simp only [if_true]
      cases el with
      | nil =>
        cases eb with
        | none =>
          have hmt : envMatches env (emit_indent "; then block"
              (emit_indent ("je " ++ ("." ++ "if_end" ++ "_" ++ natFmt st.label_counter))
                (emit_indent "cmp rax, 0" st2))) := fun k => hm2 k
          have iht := genStmts_bind t env _ hmt
          constructor
          · intro env' henv
            cases hbt : bindStmts t env with
            | none =>
              rw [hbt, opt_bind_none] at henv
              exact absurd henv (by simp)
            | some env1 =>
              rw [hbt, opt_bind_ok] at henv
              simp only [bindElifs.eq_1, opt_bind_ok] at henv
              obtain ⟨st4, hgen, hm4⟩ := iht.1 env1 hbt
              cases henv
              rw [hcond, exc_bind_ok]
              first
              | simp only
              | skip
              rw [hgen, exc_bind_ok]
              exact ⟨_, rfl, fun k => hm4 k⟩
          · intro hnone
            cases hbt : bindStmts t env with
            | some env1 =>
              rw [hbt, opt_bind_ok] at hnone
              simp only [bindElifs.eq_1, opt_bind_ok] at hnone
              exact absurd hnone (by simp)
            | none =>
              obtain ⟨er, hgen⟩ := iht.2 hbt
              refine ⟨er, ?_⟩
              rw [hcond, exc_bind_ok]
              first
              | simp only
              | skip
              rw [hgen, exc_bind_err]
        | some b =>
          have hmt : envMatches env (emit_indent "; then block"
              (emit_indent ("je " ++ ("." ++ "elif" ++ "_" ++ natFmt st2.label_counter))
                { emit_indent "cmp rax, 0" st2 with
                  label_counter := st2.label_counter + 1 })) := fun k => hm2 k
          have iht := genStmts_bind t env _ hmt
          constructor
          · intro env' henv
            cases hbt : bindStmts t env with
            | none =>
              rw [hbt, opt_bind_none] at henv
              exact absurd henv (by simp)
            | some env1 =>
              rw [hbt, opt_bind_ok] at henv
              simp only [bindElifs.eq_1, opt_bind_ok] at henv
              obtain ⟨st4, hgen, hm4⟩ := iht.1 env1 hbt
              have hmb : envMatches env1 (emit_indent "; else block"
                  (emit (("." ++ "elif" ++ "_" ++ natFmt st2.label_counter) ++ ":")
                    (emit_indent ("jmp " ++ ("." ++ "if_end" ++ "_" ++ natFmt st.label_counter))
                      st4))) := fun k => hm4 k
              have ihb := genStmts_bind b env1 _ hmb
              obtain ⟨st6, hgenb, hm6⟩ := ihb.1 env' henv
              rw [hcond, exc_bind_ok]
              simp only [emit_indent_label_counter]
              rw [hgen, exc_bind_ok]
              simp only [genElifs.eq_1, exc_bind_ok]
              rw [hgenb, exc_bind_ok]
              exact ⟨_, rfl, fun k => hm6 k⟩
          · intro hnone
            cases hbt : bindStmts t env with
            | none =>
              obtain ⟨er, hgen⟩ := iht.2 hbt
              refine ⟨er, ?_⟩
              rw [hcond, exc_bind_ok]
              simp only [emit_indent_label_counter]
              rw [hgen, exc_bind_err]
            | some env1 =>
              rw [hbt, opt_bind_ok] at hnone
              simp only [bindElifs.eq_1, opt_bind_ok] at hnone
              obtain ⟨st4, hgen, hm4⟩ := iht.1 env1 hbt
              have hmb : envMatches env1 (emit_indent "; else block"
                  (emit (("." ++ "elif" ++ "_" ++ natFmt st2.label_counter) ++ ":")
                    (emit_indent ("jmp " ++ ("." ++ "if_end" ++ "_" ++ natFmt st.label_counter))
                      st4))) := fun k => hm4 k
              have ihb := genStmts_bind b env1 _ hmb
              obtain ⟨er, hgenb⟩ := ihb.2 hnone
              refine ⟨er, ?_⟩
              rw [hcond, exc_bind_ok]
              simp only [emit_indent_label_counter]
              rw [hgen, exc_bind_ok]
              simp only [genElifs.eq_1, exc_bind_ok]
              rw [hgenb, exc_bind_err]
      | cons ec ebd erest =>
        have hmt : envMatches env (emit_indent "; then block"
            (emit_indent ("je " ++ ("." ++ "elif" ++ "_" ++ natFmt st2.label_counter))
              { emit_indent "cmp rax, 0" st2 with
                label_counter := st2.label_counter + 1 })) := fun k => hm2 k
        have iht := genStmts_bind t env _ hmt
        constructor
        · intro env' henv
          cases hbt : bindStmts t env with
          | none =>
            rw [hbt, opt_bind_none] at henv
            exact absurd henv (by simp)
          | some env1 =>
            rw [hbt, opt_bind_ok] at henv
            obtain ⟨st4, hgen, hm4⟩ := iht.1 env1 hbt
            have hm5 : envMatches env1 (emit_indent
                ("jmp " ++ ("." ++ "if_end" ++ "_" ++ natFmt st.label_counter)) st4) :=
              fun k => hm4 k
            have ihe := genElifs_bind (ElifList.cons ec ebd erest) env1
              ("." ++ "elif" ++ "_" ++ natFmt st2.label_counter)
              ("." ++ "if_end" ++ "_" ++ natFmt st.label_counter) _ hm5
            cases hbe : bindElifs (ElifList.cons ec ebd erest) env1 with
            | none =>
              rw [hbe, opt_bind_none] at henv
              exact absurd henv (by simp)
            | some env2 =>
              rw [hbe, opt_bind_ok] at henv
              obtain ⟨nf, st6, hgene, hm6⟩ := ihe.1 env2 hbe
              cases eb with
              | none =>
                simp only at henv
                cases henv
                rw [hcond, exc_bind_ok]
                simp only [emit_indent_label_counter]
                rw [hgen, exc_bind_ok]
                first
                | simp only
                | skip
                rw [hgene, exc_bind_ok]
                exact ⟨_, rfl, fun k => hm6 k⟩
              | some b =>
                simp only at henv
                have hm7 : envMatches env2 (emit_indent "; else block"
                    (emit (nf ++ ":") st6)) := fun k => hm6 k
                have ihb := genStmts_bind b env2 _ hm7
                obtain ⟨st8, hgenb, hm8⟩ := ihb.1 env' henv
                rw [hcond, exc_bind_ok]
                simp only [emit_indent_label_counter]
                rw [hgen, exc_bind_ok]
                first
                | simp only
                | skip
                rw [hgene, exc_bind_ok]
                first
                | simp only
                | skip
                rw [hgenb, exc_bind_ok]
                exact ⟨_, rfl, fun k => hm8 k⟩
        · intro hnone
          cases hbt : bindStmts t env with
          | none =>
            obtain ⟨er, hgen⟩ := iht.2 hbt
            refine ⟨er, ?_⟩
            rw [hcond, exc_bind_ok]
            simp only [emit_indent_label_counter]
            rw [hgen, exc_bind_err]
          | some env1 =>
            rw [hbt, opt_bind_ok] at hnone
            obtain ⟨st4, hgen, hm4⟩ := iht.1 env1 hbt
            have hm5 : envMatches env1 (emit_indent
                ("jmp " ++ ("." ++ "if_end" ++ "_" ++ natFmt st.label_counter)) st4) :=
              fun k => hm4 k
            have ihe := genElifs_bind (ElifList.cons ec ebd erest) env1
              ("." ++ "elif" ++ "_" ++ natFmt st2.label_counter)
              ("." ++ "if_end" ++ "_" ++ natFmt st.label_counter) _ hm5
            cases hbe : bindElifs (ElifList.cons ec ebd erest) env1 with
            | none =>
              obtain ⟨er, hgene⟩ := ihe.2 hbe
              refine ⟨er, ?_⟩
              rw [hcond, exc_bind_ok]
              simp only [emit_indent_label_counter]
              rw [hgen, exc_bind_ok]
              first
              | simp only
              | skip
              rw [hgene, exc_bind_err]
            | some env2 =>
              rw [hbe, opt_bind_ok] at hnone
              obtain ⟨nf, st6, hgene, hm6⟩ := ihe.1 env2 hbe
              cases eb with
              | none =>
                simp only at hnone
                exact absurd hnone (by simp)
              | some b =>
                simp only at hnone
                have hm7 : envMatches env2 (emit_indent "; else block"
                    (emit (nf ++ ":") st6)) := fun k => hm6 k
                have ihb := genStmts_bind b env2 _ hm7
                obtain ⟨er, hgenb⟩ := ihb.2 hnone
                refine ⟨er, ?_⟩
                rw [hcond, exc_bind_ok]
                simp only [emit_indent_label_counter]
                rw [hgen, exc_bind_ok]
                first
                | simp only
                | skip
                rw [hgene, exc_bind_ok]
                first
                | simp only
                | skip
                rw [hgenb, exc_bind_err]
    · rw [Bool.not_eq_true] at hc
      have hm1 : envMatches env (emit_indent "; if condition"
          { st with label_counter := st.label_counter + 1 }) := fun k => hm k
      obtain ⟨er, hcond⟩ := genExpr_err_of_unbound (e := c) hm1 hc
      rw [hc]
      constructor
      · intro env' henv
        exact absurd henv (by simp)
      · intro _
        refine ⟨er, ?_⟩
        cases el with
        | nil =>
          cases eb with
          | none => rw [hcond, exc_bind_err]
          | some b => rw [hcond, exc_bind_err]
        | cons ec ebd erest => rw [hcond, exc_bind_err]
termination_by s => sizeOf s

/-- Sequence version of `genStmt_bind`. -/
theorem genStmts_bind : ∀ l env st, envMatches env st →
    (∀ env', bindStmts l env = some env' →
      ∃ st', genStmts l st = .ok st' ∧ envMatches env' st') ∧
    (bindStmts l env = none → ∃ er, genStmts l st = .error er)
  | StmtList.nil, env, st, hm => by
    rw [genStmts.eq_1, bindStmts.eq_1]
    constructor
    · intro env' henv
      cases henv
      exact ⟨st, rfl, hm⟩
    · intro hnone
      exact absurd hnone (by simp)
  | StmtList.cons s r, env, st, hm => by
    rw [genStmts.eq_2, bindStmts.eq_2]
    have ihs := genStmt_bind s env st hm
    constructor
    · intro env' henv
      cases hbs : bindStmt s env with
      | none =>
        rw [hbs, opt_bind_none] at henv
        exact absurd henv (by simp)
      | some env1 =>
        rw [hbs, opt_bind_ok] at henv
        obtain ⟨st1, hgen, hm1⟩ := ihs.1 env1 hbs
        obtain ⟨st', hgen', hm'⟩ := (genStmts_bind r env1 st1 hm1).1 env' henv
        exact ⟨st', by rw [hgen, exc_bind_ok]; exact hgen', hm'⟩
    · intro hnone
      cases hbs : bindStmt s env with
      | none =>
        obtain ⟨er, hgen⟩ := ihs.2 hbs
        exact ⟨er, by rw [hgen, exc_bind_err]⟩
      | some env1 =>
        rw [hbs, opt_bind_ok] at hnone
        obtain ⟨st1, hgen, hm1⟩ := ihs.1 env1 hbs
        obtain ⟨er, hgen'⟩ := (genStmts_bind r env1 st1 hm1).2 hnone
        exact ⟨er, by rw [hgen, exc_bind_ok]; exact hgen'⟩
termination_by l => sizeOf l

/-- Elif-loop version of `genStmt_bind`. -/
theorem genElifs_bind : ∀ el env nl endl st, envMatches env st →
    (∀ env', bindElifs el env = some env' →
      ∃ nf st', genElifs el nl endl st = .ok (nf, st') ∧ envMatches env' st') ∧
    (bindElifs el env = none → ∃ er, genElifs el nl endl st = .error er)
  | ElifList.nil, env, nl, endl, st, hm => by
    rw [genElifs.eq_1, bindElifs.eq_1]
    constructor
    · intro env' henv
      cases henv
      exact ⟨nl, st, rfl, hm⟩
    · intro hnone
      exact absurd hnone (by simp)
  | ElifList.cons c b r, env, nl, endl, st, hm => by
    rw [bindElifs.eq_2]
    simp only [genElifs.eq_2, new_label]
    by_cases hc : exprBound env c = true
    · have hm1 : envMatches env (emit_indent "; elif condition"
          { emit (nl ++ ":") st with
            label_counter := (emit (nl ++ ":") st).label_counter + 1 }) := fun k => hm k
      obtain ⟨st2, hcond, hm2⟩ := genExpr_ok_of_bound (e := c) hm1 hc
      rw [hc]
      simp only [if_true]
      have hmb : envMatches env (emit_indent "; elif block"
          (emit_indent ("je " ++ ("." ++ "elif" ++ "_" ++ natFmt st.label_counter))
            (emit_indent "cmp rax, 0" st2))) := fun k => hm2 k
      have ihb := genStmts_bind b env _ hmb
      constructor
      · intro env' henv
        cases hbb : bindStmts b env with
        | none =>
          rw [hbb, opt_bind_none] at henv
          exact absurd henv (by simp)
        | some env1 =>
          rw [hbb, opt_bind_ok] at henv
          obtain ⟨st4, hgenb, hm4⟩ := ihb.1 env1 hbb
          have hm5 : envMatches env1 (emit_indent ("jmp " ++ endl) st4) := fun k => hm4 k
          have ihr := genElifs_bind r env1
            ("." ++ "elif" ++ "_" ++ natFmt st.label_counter) endl _ hm5
          obtain ⟨nf, st', hgenr, hm'⟩ := ihr.1 env' henv
          refine ⟨nf, st', ?_, hm'⟩
          rw [hcond, exc_bind_ok]
          simp only [emit_label_counter]
          rw [hgenb, exc_bind_ok]
          exact hgenr
      · intro hnone
        cases hbb : bindStmts b env with
        | none =>
          obtain ⟨er, hgenb⟩ := ihb.2 hbb
          refine ⟨er, ?_⟩
          rw [hcond, exc_bind_ok]
          simp only [emit_label_counter]
          rw [hgenb, exc_bind_err]
        | some env1 =>
          rw [hbb, opt_bind_ok] at hnone
          obtain ⟨st4, hgenb, hm4⟩ := ihb.1 env1 hbb
          have hm5 : envMatches env1 (emit_indent ("jmp " ++ endl) st4) := fun k => hm4 k
          have ihr := genElifs_bind r env1
            ("." ++ "elif" ++ "_" ++ natFmt st.label_counter) endl _ hm5
          obtain ⟨er, hgenr⟩ := ihr.2 hnone
          refine ⟨er, ?_⟩
          rw [hcond, exc_bind_ok]
          simp only [emit_label_counter]
          rw [hgenb, exc_bind_ok]
          exact hgenr
    · rw [Bool.not_eq_true] at hc
      have hm1 : envMatches env (emit_indent "; elif condition"
          { emit (nl ++ ":") st with
            label_counter := (emit (nl ++ ":") st).label_counter + 1 }) := fun k => hm k
      obtain ⟨er, hcond⟩ := genExpr_err_of_unbound (e := c) hm1 hc
      rw [hc]
      constructor
      · intro env' henv
        exact absurd henv (by simp)
      · intro _
        refine ⟨er, ?_⟩
        rw [hcond, exc_bind_err]
termination_by el => sizeOf el

end

/-- C6: for a `While`-free program, code generation completes normally
exactly when every identifier reference has a prior `Let` for that name
in the generation pass (the claim's unbound-reference condition), and an
unbound reference terminates the pass abnormally with an error naming
the identifier and no output at all — witnessed by `exit(y);` with no
binding for `y`, which yields the `unboundVar "y"` abort rather than any
instruction referencing `y`. -/
theorem c6_codegen_ok_iff_all_bound :
    (∀ prog, stmtsHaveWhile prog = false → genOk prog = allBound prog) ∧
    genProgram (StmtList.ofList [Stmt.Exit (Expr.Ident "y")]) =
      .error (GenErr.unboundVar "y") := by
  constructor
  · intro prog hW
    have hm0 : envMatches [] (prologue prog) := by
      intro k
      simp [prologue_vars, List.contains]
    have hb := genStmts_bind prog [] (prologue prog) hm0
    cases hbs : bindStmts prog [] with
    | some env' =>
      obtain ⟨st', hgen, _⟩ := hb.1 env' hbs
      have hgenP : genProgram prog = .ok (emit_indent "syscall"
          (emit_indent "xor rdi, rdi" (emit_indent "mov rax, 60"
            (emit_indent "; default exit" (emit "" st'))))) := by
        simp only [genProgram, generate]
        rw [hgen, exc_bind_ok]
      simp [genOk, hgenP, allBound, hbs]
    | none =>
      obtain ⟨er, hgen⟩ := hb.2 hbs
      have hgenP : genProgram prog = .error er := by
        simp only [genProgram, generate]
        rw [hgen, exc_bind_err]
      simp [genOk, hgenP, allBound, hbs]
  · rfl

/-- C6, witnessed at the bound program `let x = 1; exit(x);` (the
generator succeeds and the binding check agrees). -/
theorem c6_codegen_ok_iff_all_bound_witness :
    stmtsHaveWhile (StmtList.ofList [Stmt.Let "x" (Expr.Num 1),
      Stmt.Exit (Expr.Ident "x")]) = false ∧
    genOk (StmtList.ofList [Stmt.Let "x" (Expr.Num 1), Stmt.Exit (Expr.Ident "x")]) =
      allBound (StmtList.ofList [Stmt.Let "x" (Expr.Num 1), Stmt.Exit (Expr.Ident "x")]) ∧
    genOk (StmtList.ofList [Stmt.Let "x" (Expr.Num 1), Stmt.Exit (Expr.Ident "x")]) = true :=
  ⟨by rfl, c6_codegen_ok_iff_all_bound.1 _ (by rfl), by rfl⟩

theorem cursorInv_new : cursorInv CodeGen.new := by
  intro n off h
  simp [CodeGen.new] at h

theorem cursorInv_of_same {st st' : CodeGen} (hv : st'.vars = st.vars)
    (ho : st'.stack_offset = st.stack_offset) (h : cursorInv st) : cursorInv st' := by
  intro n off hn
  rw [hv] at hn
  rw [ho]
  exact h n off hn

/-- Transfer `cursorInv` along definitional equality of the two fields;
the source state is fixed by the invariant argument, which comes first. -/
theorem cursorInv_lift {b : CodeGen} (h : cursorInv b) (a : CodeGen)
    (hv : a.vars = b.vars) (ho : a.stack_offset = b.stack_offset) : cursorInv a := by
  intro n off hn
  rw [hv] at hn
  rw [ho]
  exact h n off hn

theorem cursorInv_emit {st : CodeGen} (l : String) (h : cursorInv st) :
    cursorInv (emit l st) := h

theorem cursorInv_emit_indent {st : CodeGen} (l : String) (h : cursorInv st) :
    cursorInv (emit_indent l st) := h

theorem cursorInv_genExpr {e : Expr} {st st' : CodeGen}
    (hgen : genExpr e st = .ok st') (h : cursorInv st) : cursorInv st' := by
  have c := genExpr_core e st st' hgen
  exact cursorInv_of_same c.1 c.2.1 h

mutual

/-- `gen_stmt` preserves the cursor invariant. -/
theorem genStmt_inv : ∀ s st st', genStmt s st = .ok st' → cursorInv st → cursorInv st'
  | Stmt.Let n e, st, st', h, hI => by
    rw [genStmt.eq_1] at h
    rw [exc_bind_ok_iff] at h
    obtain ⟨st1, he, h⟩ := h
    cases h
    have hI1 := cursorInv_genExpr he (cursorInv_emit_indent _ hI)
    have hoff : st1.stack_offset = st.stack_offset :=
      (genExpr_core e _ _ he).2.1.trans (sameCore_emit_indent _ _).2.1
    intro m off hm
    simp only [emit, emit_indent] at hm ⊢
    by_cases hk : m = n
    · simp only [hk, if_true] at hm
      cases hm
      omega
    · simp only [hk, if_false] at hm
      have := hI1 m off hm
      omega
  | Stmt.Exit e, st, st', h, hI => by
    rw [genStmt.eq_2] at h
    rw [exc_bind_ok_iff] at h
    obtain ⟨st1, he, h⟩ := h
    cases h
    exact cursorInv_lift (cursorInv_genExpr he (cursorInv_emit_indent _ hI)) _ rfl rfl
  | Stmt.While c b, st, st', h, hI => by
    rw [genStmt.eq_3] at h
    exact absurd h (by simp)
  | Stmt.If cond thenB elifs elseB, st, st', h, hI => by
    simp only [genStmt.eq_4, new_label] at h
    rw [exc_bind_ok_iff] at h
    obtain ⟨st2, hcond, h⟩ := h
    have hI2 : cursorInv st2 := cursorInv_genExpr hcond (cursorInv_lift hI _ rfl rfl)
    cases elifs with
    | nil =>
      cases elseB with
      | none =>
        simp only at h
        rw [exc_bind_ok_iff] at h
        obtain ⟨st3, hthen, h⟩ := h
        cases h
        exact cursorInv_lift
          (genStmts_inv thenB _ _ hthen (cursorInv_lift hI2 _ rfl rfl)) _ rfl rfl
      | some b =>
        simp only at h
        rw [exc_bind_ok_iff] at h
        obtain ⟨st3, hthen, h⟩ := h
        rw [exc_bind_ok_iff] at h
        obtain ⟨p, helifs, h⟩ := h
        obtain ⟨nf, st4⟩ := p
        simp only at h
        rw [exc_bind_ok_iff] at h
        obtain ⟨st5, helse, h⟩ := h
        cases h
        have h3 := genStmts_inv thenB _ _ hthen (cursorInv_lift hI2 _ rfl rfl)
        rw [genElifs.eq_1] at helifs
        cases helifs
        exact cursorInv_lift
          (genStmts_inv b _ _ helse (cursorInv_lift h3 _ rfl rfl)) _ rfl rfl
    | cons ec ebd erest =>
      cases elseB with
      | none =>
        simp only at h
        rw [exc_bind_ok_iff] at h
        obtain ⟨st3, hthen, h⟩ := h
        rw [exc_bind_ok_iff] at h
        obtain ⟨p, helifs, h⟩ := h
        obtain ⟨nf, st4⟩ := p
        simp only at h
        cases h
        have h3 := genStmts_inv thenB _ _ hthen (cursorInv_lift hI2 _ rfl rfl)
        exact cursorInv_lift
          (genElifs_inv (ElifList.cons ec ebd erest) _ _ _ _ _ helifs
            (cursorInv_lift h3 _ rfl rfl)) _ rfl rfl
      | some b =>
        simp only at h
        rw [exc_bind_ok_iff] at h
        obtain ⟨st3, hthen, h⟩ := h
        rw [exc_bind_ok_iff] at h
        obtain ⟨p, helifs, h⟩ := h
        obtain ⟨nf, st4⟩ := p
        simp only at h
        rw [exc_bind_ok_iff] at h
        obtain ⟨st5, helse, h⟩ := h
        cases h
        have h3 := genStmts_inv thenB _ _ hthen (cursorInv_lift hI2 _ rfl rfl)
        have h4 := genElifs_inv (ElifList.cons ec ebd erest) _ _ _ _ _ helifs
          (cursorInv_lift h3 _ rfl rfl)
        exact cursorInv_lift
          (genStmts_inv b _ _ helse (cursorInv_lift h4 _ rfl rfl)) _ rfl rfl
termination_by s => sizeOf s

/-- Sequence version of `genStmt_inv`. -/
theorem genStmts_inv : ∀ l st st', genStmts l st = .ok st' → cursorInv st → cursorInv st'
  | StmtList.nil, st, st', h, hI => by
    rw [genStmts.eq_1] at h
    cases h
    exact hI
  | StmtList.cons s r, st, st', h, hI => by
    rw [genStmts.eq_2] at h
    rw [exc_bind_ok_iff] at h
    obtain ⟨st1, hs, hr⟩ := h
    exact genStmts_inv r _ _ hr (genStmt_inv s _ _ hs hI)
termination_by l => sizeOf l

/-- Elif-loop version of `genStmt_inv`. -/
theorem genElifs_inv : ∀ el nl endl st nf st',
    genElifs el nl endl st = .ok (nf, st') → cursorInv st → cursorInv st'
  | ElifList.nil, nl, endl, st, nf, st', h, hI => by
    rw [genElifs.eq_1] at h
    cases h
    exact hI
  | ElifList.cons c b r, nl, endl, st, nf, st', h, hI => by
    simp only [genElifs.eq_2, new_label] at h
    rw [exc_bind_ok_iff] at h
    obtain ⟨st2, hcond, h⟩ := h
    rw [exc_bind_ok_iff] at h
    obtain ⟨st3, hbody, h⟩ := h
    have hI2 : cursorInv st2 := cursorInv_genExpr hcond (cursorInv_lift hI _ rfl rfl)
    have hI3 := genStmts_inv b _ _ hbody (cursorInv_lift hI2 _ rfl rfl)
    exact cursorInv_lift
      (genElifs_inv r _ _ _ _ _ h (cursorInv_lift hI3 _ rfl rfl)) _ rfl rfl
termination_by el => sizeOf el

end

/-- C8: under the cursor invariant (which holds initially and is
preserved by every statement), lowering a `Let` decrements the
allocation cursor by exactly one 8-byte word, binds the name to the
fresh offset — an offset no earlier table entry uses — and re-declaring
a name simply rebinds it; the re-declaration program
`let x = 1; let x = 2; exit(x);` stores 1 at `[rbp-8]`, 2 at `[rbp-16]`,
and the lowered exit reads `[rbp-16]` back. -/
theorem c8_let_allocates_fresh_slot :
    (∀ n e st st', cursorInv st → genStmt (Stmt.Let n e) st = .ok st' →
      st'.stack_offset = st.stack_offset - 8 ∧
      st'.vars n = some (st.stack_offset - 8) ∧
      (∀ m off, st.vars m = some off → off ≠ st.stack_offset - 8) ∧
      cursorInv st') ∧
    genLines (StmtList.ofList [Stmt.Let "x" (Expr.Num 1), Stmt.Let "x" (Expr.Num 2),
      Stmt.Exit (Expr.Ident "x")]) =
      some ["section .data", "", "section .bss", "", "section .text", "global _start", "",
        "_start:", "    push rbp", "    mov rbp, rsp", "    sub rsp, 16", "",
        "    ; let x = ...", "    mov rax, 1", "    mov [rbp-8], rax", "",
        "    ; let x = ...", "    mov rax, 2", "    mov [rbp-16], rax", "",
        "    ; exit", "    mov rax, [rbp-16]", "    mov rdi, rax", "    mov rax, 60",
        "    syscall", "",
        "", "    ; default exit", "    mov rax, 60", "    xor rdi, rdi", "    syscall"] := by
  constructor
  · intro n e st st' hI h
    have hoffside := genStmt_offset (Stmt.Let n e) st st' h
    rw [stmtLetsAll.eq_1] at hoffside
    rw [genStmt.eq_1] at h
    rw [exc_bind_ok_iff] at h
    obtain ⟨st1, he, h⟩ := h
    cases h
    have hoff : st1.stack_offset = st.stack_offset :=
      (genExpr_core e _ _ he).2.1.trans (sameCore_emit_indent _ _).2.1
    refine ⟨by omega, ?_, ?_, ?_⟩
    · simp only [emit, emit_indent]
      simp [hoff]
    · intro m off hmv
      have := hI m off hmv
      omega
    · exact genStmt_inv (Stmt.Let n e) st _ (by rw [genStmt.eq_1, he, exc_bind_ok]) hI
  · rfl

/-- C8, witnessed by lowering `let x = 5;` from the initial state. -/
theorem c8_let_allocates_fresh_slot_witness :
    cursorInv CodeGen.new ∧
    genStmt (Stmt.Let "x" (Expr.Num 5)) CodeGen.new = .ok c8LetState ∧
    (c8LetState.stack_offset = CodeGen.new.stack_offset - 8 ∧
     c8LetState.vars "x" = some (CodeGen.new.stack_offset - 8) ∧
     (∀ m off, CodeGen.new.vars m = some off → off ≠ CodeGen.new.stack_offset - 8) ∧
     cursorInv c8LetState) :=
  ⟨cursorInv_new, rfl,
    c8_let_allocates_fresh_slot.1 "x" (Expr.Num 5) CodeGen.new c8LetState cursorInv_new rfl⟩

theorem isLabelLine_labelDef (p : String) (i : Nat) : isLabelLine (labelDef p i) = true := rfl

theorem isLabelLine_indent (s : String) : isLabelLine ("    " ++ s) = false := rfl

theorem isLabelLine_empty : isLabelLine "" = false := rfl

theorem isSubRspLine_labelDef (p : String) (i : Nat) :
    isSubRspLine (labelDef p i) = false := rfl

theorem labelName_data (p : String) (i : Nat) :
    (labelName p i).data = '.' :: (p.data ++ ('_' :: (natFmt i).data)) := by
  simp [labelName, String.data_append]

theorem labelDef_data (p : String) (i : Nat) :
    (labelDef p i).data = '.' :: (p.data ++ ('_' :: ((natFmt i).data ++ [':']))) := by
  simp [labelDef, labelName, String.data_append]

/-- Distinct counter values give distinct label-definition lines, for
the two prefixes the generator uses. -/
theorem labelDef_inj {p q : String} {i k : Nat}
    (hp : p = "if_end" ∨ p = "elif") (hq : q = "if_end" ∨ q = "elif")
    (h : labelDef p i = labelDef q k) : p = q ∧ i = k := by
  have hd := congrArg String.data h
  rw [labelDef_data, labelDef_data] at hd
  cases hp with
  | inl hp =>
    cases hq with
    | inl hq =>
      subst hp; subst hq
      refine ⟨rfl, ?_⟩
      simp only [List.cons.injEq, true_and] at hd
      simp only [show ("if_end" : String).data =
        ['i', 'f', '_', 'e', 'n', 'd'] from rfl, List.cons_append, List.nil_append,
        List.cons.injEq, true_and] at hd
      have hdata : (natFmt i).data = (natFmt k).data := List.append_cancel_right hd
      have : natFmt i = natFmt k := by
        cases hfi : natFmt i with
        | mk d1 =>
          cases hfk : natFmt k with
          | mk d2 =>
            rw [hfi, hfk] at hdata
            simp at hdata
            rw [hdata]
      exact natFmt_injective this
    | inr hq =>
      subst hp; subst hq
      exfalso
      simp only [show ("if_end" : String).data =
        ['i', 'f', '_', 'e', 'n', 'd'] from rfl,
        show ("elif" : String).data = ['e', 'l', 'i', 'f'] from rfl,
        List.cons_append, List.nil_append, List.cons.injEq] at hd
      exact absurd hd.2.1 (by decide)
  | inr hp =>
    cases hq with
    | inl hq =>
      subst hp; subst hq
      exfalso
      simp only [show ("if_end" : String).data =
        ['i', 'f', '_', 'e', 'n', 'd'] from rfl,
        show ("elif" : String).data = ['e', 'l', 'i', 'f'] from rfl,
        List.cons_append, List.nil_append, List.cons.injEq] at hd
      exact absurd hd.2.1 (by decide)
    | inr hq =>
      subst hp; subst hq
      refine ⟨rfl, ?_⟩
      simp only [show ("elif" : String).data = ['e', 'l', 'i', 'f'] from rfl,
        List.cons_append, List.nil_append, List.cons.injEq, true_and] at hd
      have hdata : (natFmt i).data = (natFmt k).data := List.append_cancel_right hd
      have : natFmt i = natFmt k := by
        cases hfi : natFmt i with
        | mk d1 =>
          cases hfk : natFmt k with
          | mk d2 =>
            rw [hfi, hfk] at hdata
            simp at hdata
            rw [hdata]
      exact natFmt_injective this

/-- Both line predicates are false for every instruction line the
`BinOp` operator table emits. -/
theorem genOpEmit_lines (op : Op) (st : CodeGen) :
    ∃ opnew, (genOpEmit op st).lines = st.lines ++ opnew ∧
      ∀ l ∈ opnew, isLabelLine l = false ∧ isSubRspLine l = false := by
  cases op
  · exact ⟨["    add rax, rbx"], by simp [genOpEmit], by decide⟩
  · exact ⟨["    sub rax, rbx"], by simp [genOpEmit], by decide⟩
  · exact ⟨["    imul rax, rbx"], by simp [genOpEmit], by decide⟩
  · exact ⟨["    cqo", "    idiv rbx"], by simp [genOpEmit], by decide⟩
  · exact ⟨["    cmp rax, rbx", "    sete al", "    movzx rax, al"],
      by simp [genOpEmit], by decide⟩
  · exact ⟨["    cmp rax, rbx", "    setne al", "    movzx rax, al"],
      by simp [genOpEmit], by decide⟩
  · exact ⟨["    cmp rax, rbx", "    setg al", "    movzx rax, al"],
      by simp [genOpEmit], by decide⟩
  · exact ⟨["    cmp rax, rbx", "    setge al", "    movzx rax, al"],
      by simp [genOpEmit], by decide⟩
  · exact ⟨["    cmp rax, rbx", "    setl al", "    movzx rax, al"],
      by simp [genOpEmit], by decide⟩
  · exact ⟨["    cmp rax, rbx", "    setle al", "    movzx rax, al"],
      by simp [genOpEmit], by decide⟩

/-- Expression lowering emits only plain indented instruction lines: no
label definitions and no stack reservations, and the label counter is
untouched. -/
theorem genExpr_lines : ∀ e st st', genExpr e st = .ok st' →
    ∃ new, st'.lines = st.lines ++ new ∧ st'.label_counter = st.label_counter ∧
      ∀ l ∈ new, isLabelLine l = false ∧ isSubRspLine l = false
  | Expr.Num n, st, st', h => by
    rw [genExpr.eq_1] at h
    cases h
    refine ⟨["    " ++ ("mov rax, " ++ intFmt n)], by simp [emit_indent], rfl, ?_⟩
    intro l hl
    simp only [List.mem_singleton] at hl
    subst hl
    exact ⟨rfl, rfl⟩
  | Expr.Ident name, st, st', h => by
    rw [genExpr.eq_2] at h
    cases hv : st.vars name with
    | none => rw [hv] at h; exact absurd h (by simp)
    | some off =>
      rw [hv] at h
      cases h
      refine ⟨["    " ++ ("mov rax, [rbp" ++ intFmt off ++ "]")], by simp [emit_indent], rfl, ?_⟩
      intro l hl
      simp only [List.mem_singleton] at hl
      subst hl
      exact ⟨rfl, rfl⟩
  | Expr.BinOp l op r, st, st', h => by
    rw [genExpr.eq_3] at h
    rw [exc_bind_ok_iff] at h
    obtain ⟨st1, hr, h⟩ := h
    rw [exc_bind_ok_iff] at h
    obtain ⟨st2, hl, h⟩ := h
    cases h
    obtain ⟨newR, hlineR, hcR, hokR⟩ := genExpr_lines r st st1 hr
    obtain ⟨newL, hlineL, hcL, hokL⟩ := genExpr_lines l _ st2 hl
    obtain ⟨opnew, hlineOp, hokOp⟩ := genOpEmit_lines op (emit_indent "pop rbx" st2)
    refine ⟨newR ++ ["    push rax"] ++ newL ++ ["    pop rbx"] ++ opnew, ?_, ?_, ?_⟩
    · rw [hlineOp]
      simp only [emit_indent_lines, hlineL, hlineR]
      simp [List.append_assoc]
    · rw [(sameCore_genOpEmit op _).2.2]
      simp only [emit_indent_label_counter, hcL, emit_indent_label_counter, hcR]
    · intro x hx
      simp only [List.append_assoc, List.mem_append, List.mem_singleton] at hx
      rcases hx with hx | hx | hx | hx | hx
      · exact hokR x hx
      · subst hx; exact ⟨rfl, rfl⟩
      · exact hokL x hx
      · subst hx; exact ⟨rfl, rfl⟩
      · exact hokOp x hx
  | Expr.UnaryOp op e, st, st', h => by
    rw [genExpr.eq_4] at h
    rw [exc_bind_ok_iff] at h
    obtain ⟨st1, he, h⟩ := h
    obtain ⟨newE, hlineE, hcE, hokE⟩ := genExpr_lines e st st1 he
    cases op
    case Sub =>
      simp only at h
      cases h
      refine ⟨newE ++ ["    neg rax"], ?_, by simpa using hcE, ?_⟩
      · simp only [emit_indent_lines, hlineE]
        simp [List.append_assoc]
      · intro x hx
        simp only [List.mem_append, List.mem_singleton] at hx
        rcases hx with hx | hx
        · exact hokE x hx
        · subst hx; exact ⟨rfl, rfl⟩
    all_goals
      simp only at h
      cases h
      exact ⟨newE, hlineE, hcE, hokE⟩

theorem LabelsP.mono {P Q : Nat → Prop} {new : List String}
    (h : LabelsP P new) (himp : ∀ i, P i → Q i) : LabelsP Q new := by
  intro l hl hlab
  obtain ⟨p, i, hv, hP, he⟩ := h l hl hlab
  exact ⟨p, i, hv, himp i hP, he⟩

theorem LabelsP.append {P : Nat → Prop} {A B : List String}
    (hA : LabelsP P A) (hB : LabelsP P B) : LabelsP P (A ++ B) := by
  intro l hl hlab
  rcases List.mem_append.mp hl with h | h
  · exact hA l h hlab
  · exact hB l h hlab

theorem LabelsP.plain {P : Nat → Prop} {new : List String}
    (h : ∀ l ∈ new, isLabelLine l = false) : LabelsP P new := by
  intro l hl hlab
  rw [h l hl] at hlab
  exact absurd hlab (by simp)

theorem LabelsP.single {P : Nat → Prop} {p : String} {i : Nat}
    (hv : p = "if_end" ∨ p = "elif") (hP : P i) : LabelsP P [labelDef p i] := by
  intro l hl _
  simp only [List.mem_singleton] at hl
  subst hl
  exact ⟨p, i, hv, hP, rfl⟩

theorem labels_filter_nil {new : List String}
    (h : ∀ l ∈ new, isLabelLine l = false) : new.filter isLabelLine = [] := by
  induction new with
  | nil => rfl
  | cons a r ih =>
    rw [List.filter_cons, h a (by simp)]
    simp only [Bool.false_eq_true, if_false]
    exact ih fun l hl => h l (by simp [hl])

theorem labels_disjoint {P Q : Nat → Prop} {A B : List String}
    (hA : LabelsP P A) (hB : LabelsP Q B) (hPQ : ∀ i, P i → Q i → False) :
    List.Disjoint (A.filter isLabelLine) (B.filter isLabelLine) := by
  intro l hlA hlB
  rw [List.mem_filter] at hlA hlB
  obtain ⟨p, i, hvp, hP, hep⟩ := hA l hlA.1 hlA.2
  obtain ⟨q, k, hvq, hQ, heq⟩ := hB l hlB.1 hlB.2
  have heql : labelDef p i = labelDef q k := hep.symm.trans heq
  have hik := (labelDef_inj hvp hvq heql).2
  subst hik
  exact hPQ i hP hQ

theorem nodup_filter_append {A B : List String}
    (hA : (A.filter isLabelLine).Nodup) (hB : (B.filter isLabelLine).Nodup)
    (hd : List.Disjoint (A.filter isLabelLine) (B.filter isLabelLine)) :
    ((A ++ B).filter isLabelLine).Nodup := by
  rw [List.filter_append]
  exact List.Nodup.append hA hB hd

theorem nodup_filter_singleton (l : String) : ([l].filter isLabelLine).Nodup := by
  cases h : isLabelLine l <;> simp [List.filter, h]

theorem forall_mem_append' {α : Type} {P : α → Prop} {A B : List α}
    (hA : ∀ l ∈ A, P l) (hB : ∀ l ∈ B, P l) : ∀ l ∈ A ++ B, P l := by
  intro l hl
  rcases List.mem_append.mp hl with h | h
  · exact hA l h
  · exact hB l h

theorem LabelsP.cons_def {P : Nat → Prop} {p : String} {i : Nat} {A : List String}
    (hv : p = "if_end" ∨ p = "elif") (hP : P i) (hA : LabelsP P A) :
    LabelsP P (labelDef p i :: A) := by
  intro l hl hlab
  rcases List.mem_cons.mp hl with h | h
  · subst h; exact ⟨p, i, hv, hP, rfl⟩
  · exact hA l h hlab

theorem LabelsP.cons_plain {P : Nat → Prop} {a : String} {A : List String}
    (h : isLabelLine a = false) (hA : LabelsP P A) : LabelsP P (a :: A) := by
  intro l hl hlab
  rcases List.mem_cons.mp hl with he | he
  · subst he; rw [h] at hlab; exact absurd hlab (by simp)
  · exact hA l he hlab

theorem nodup_filter_cons_plain {a : String} {A : List String}
    (h : isLabelLine a = false) (hA : (A.filter isLabelLine).Nodup) :
    (((a :: A)).filter isLabelLine).Nodup := by
  rw [List.filter_cons, h]
  simpa using hA

theorem nodup_filter_append_plain {A B : List String}
    (h : ∀ l ∈ A, isLabelLine l = false) (hB : (B.filter isLabelLine).Nodup) :
    ((A ++ B).filter isLabelLine).Nodup := by
  rw [List.filter_append, labels_filter_nil h]
  simpa using hB

theorem labelsP_cons_def (P : Nat → Prop) {p : String} {i : Nat} {A : List String}
    (hv : p = "if_end" ∨ p = "elif") (hP : P i) (hA : LabelsP P A) :
    LabelsP P (labelDef p i :: A) := by
  intro l hl hlab
  rcases List.mem_cons.mp hl with h | h
  · subst h; exact ⟨p, i, hv, hP, rfl⟩
  · exact hA l h hlab

theorem nodup_filter_cons_def (Q : Nat → Prop) {p : String} {i : Nat} {A : List String}
    (hv : p = "if_end" ∨ p = "elif") (hA : LabelsP Q A) (hni : ∀ k, Q k → k ≠ i)
    (hN : (A.filter isLabelLine).Nodup) :
    ((labelDef p i :: A).filter isLabelLine).Nodup := by
  rw [List.filter_cons, isLabelLine_labelDef]
  simp only [if_true]
  rw [List.nodup_cons]
  refine ⟨?_, hN⟩
  intro hmem
  rw [List.mem_filter] at hmem
  obtain ⟨q, k, hvq, hQ, he⟩ := hA _ hmem.1 hmem.2
  have := labelDef_inj hv hvq he
  exact hni k hQ this.2.symm

mutual

/-- A successful `gen_stmt` appends a block of lines whose label
definitions all carry counter values allocated while lowering this
statement (at or above the entry counter, below the exit counter),
contains no stack-reservation line, and defines no label twice. -/
theorem genStmt_labels : ∀ s st st', genStmt s st = .ok st' →
    ∃ new, st'.lines = st.lines ++ new ∧ st.label_counter ≤ st'.label_counter ∧
      LabelsP (fun i => st.label_counter ≤ i ∧ i < st'.label_counter) new ∧
      (∀ l ∈ new, isSubRspLine l = false) ∧
      (new.filter isLabelLine).Nodup
  | Stmt.Let name e, st, st', h => by
    rw [genStmt.eq_1] at h
    rw [exc_bind_ok_iff] at h
    obtain ⟨st1, he, h⟩ := h
    cases h
    obtain ⟨newE, hlE, hcE, hokE⟩ := genExpr_lines e _ _ he
    have hplain : ∀ l ∈ ("    " ++ ("; let " ++ name ++ " = ...")) ::
        (newE ++ ["    " ++ ("mov [rbp" ++ intFmt (st1.stack_offset - 8) ++ "], rax"), ""]),
        isLabelLine l = false := by
      refine List.forall_mem_cons.mpr ⟨rfl, ?_⟩
      refine forall_mem_append' (fun l hl => (hokE l hl).1) ?_
      intro l hl
      rcases List.mem_cons.mp hl with h1 | h1
      · subst h1; rfl
      · simp only [List.mem_singleton] at h1; subst h1; rfl
    refine ⟨("    " ++ ("; let " ++ name ++ " = ...")) ::
        (newE ++ ["    " ++ ("mov [rbp" ++ intFmt (st1.stack_offset - 8) ++ "], rax"), ""]),
        ?_, ?_, LabelsP.plain hplain, ?_, ?_⟩
    · rw [show ∀ a : CodeGen, (emit "" a).lines = a.lines ++ [""] from fun a => rfl]
      simp only [emit_indent_lines]
      rw [hlE]
      simp only [emit_indent_lines]
      simp [List.append_assoc]
    · simp only [emit_label_counter, emit_indent_label_counter] at hcE ⊢
      omega
    · refine List.forall_mem_cons.mpr ⟨rfl, ?_⟩
      refine forall_mem_append' (fun l hl => (hokE l hl).2) ?_
      intro l hl
      rcases List.mem_cons.mp hl with h1 | h1
      · subst h1; rfl
      · simp only [List.mem_singleton] at h1; subst h1; rfl
    · rw [labels_filter_nil hplain]
      exact List.nodup_nil
  | Stmt.Exit e, st, st', h => by
    rw [genStmt.eq_2] at h
    rw [exc_bind_ok_iff] at h
    obtain ⟨st1, he, h⟩ := h
    cases h
    obtain ⟨newE, hlE, hcE, hokE⟩ := genExpr_lines e _ _ he
    have hplain : ∀ l ∈ ("    " ++ "; exit") ::
        (newE ++ ["    " ++ "mov rdi, rax", "    " ++ "mov rax, 60", "    " ++ "syscall", ""]),
        isLabelLine l = false := by
      refine List.forall_mem_cons.mpr ⟨rfl, ?_⟩
      refine forall_mem_append' (fun l hl => (hokE l hl).1) ?_
      intro l hl
      simp only [List.mem_cons, List.not_mem_nil, or_false] at hl
      rcases hl with h1 | h1 | h1 | h1 <;> (subst h1; rfl)
    refine ⟨("    " ++ "; exit") ::
        (newE ++ ["    " ++ "mov rdi, rax", "    " ++ "mov rax, 60", "    " ++ "syscall", ""]),
        ?_, ?_, LabelsP.plain hplain, ?_, ?_⟩
    · simp only [emit_lines, emit_indent_lines]
      rw [hlE]
      simp only [emit_indent_lines]
      simp [List.append_assoc]
    · simp only [emit_label_counter, emit_indent_label_counter] at hcE ⊢
      omega
    · refine List.forall_mem_cons.mpr ⟨rfl, ?_⟩
      refine forall_mem_append' (fun l hl => (hokE l hl).2) ?_
      intro l hl
      simp only [List.mem_cons, List.not_mem_nil, or_false] at hl
      rcases hl with h1 | h1 | h1 | h1 <;> (subst h1; rfl)
    · rw [labels_filter_nil hplain]
      exact List.nodup_nil
  | Stmt.While c b, st, st', h => by
    rw [genStmt.eq_3] at h
    exact absurd h (by simp)
  | Stmt.If cond thenB elifs elseB, st, st', h => by
    simp only [genStmt.eq_4, new_label] at h
    rw [exc_bind_ok_iff] at h
    obtain ⟨st2, hcond, h⟩ := h
    obtain ⟨newC, hlC, hcC, hokC⟩ := genExpr_lines cond _ _ hcond
    have hc2 : st2.label_counter = st.label_counter + 1 := by
      simp at hcC
      omega
    cases elifs with
    | nil =>
      cases elseB with
      | none =>
        simp only at h
        rw [exc_bind_ok_iff] at h
        obtain ⟨st3, hthen, h⟩ := h
        cases h
        obtain ⟨nT, hlT, hcT, hPT, hsT, hnT⟩ := genStmts_labels thenB _ _ hthen
        have hcT' : st.label_counter + 1 ≤ st3.label_counter := by
          simp only [emit_indent_label_counter] at hcT
          omega
        simp only [emit_lines, emit_label_counter]
        refine ⟨("    " ++ "; if condition") :: (newC ++
            ("    " ++ "cmp rax, 0") ::
            ("    " ++ ("je " ++ ("." ++ "if_end" ++ "_" ++ natFmt st.label_counter))) ::
            ("    " ++ "; then block") ::
            (nT ++ [labelDef "if_end" st.label_counter, ""])), ?_, ?_, ?_, ?_, ?_⟩
        · rw [hlT]
          simp only [emit_indent_lines]
          rw [hlC]
          simp only [emit_indent_lines]
          simp [labelDef, labelName, List.append_assoc]
        · omega
        · refine LabelsP.cons_plain rfl (LabelsP.append
            (LabelsP.plain fun l hl => (hokC l hl).1)
            (LabelsP.cons_plain rfl (LabelsP.cons_plain rfl (LabelsP.cons_plain rfl
              (LabelsP.append (hPT.mono ?_)
                (labelsP_cons_def _ (Or.inl rfl) ?_ (LabelsP.plain ?_)))))))
          · intro i hi
            simp only [emit_indent_label_counter] at hi
            omega
          · omega
          · intro l hl
            simp only [List.mem_singleton] at hl
            subst hl
            rfl
        · refine List.forall_mem_cons.mpr ⟨rfl, ?_⟩
          refine forall_mem_append' (fun l hl => (hokC l hl).2) ?_
          refine List.forall_mem_cons.mpr ⟨rfl, ?_⟩
          refine List.forall_mem_cons.mpr ⟨rfl, ?_⟩
          refine List.forall_mem_cons.mpr ⟨rfl, ?_⟩
          refine forall_mem_append' hsT ?_
          intro l hl
          simp only [List.mem_cons, List.not_mem_nil, or_false] at hl
          rcases hl with h1 | h1 <;> (subst h1; rfl)
        · refine nodup_filter_cons_plain rfl ?_
          refine nodup_filter_append_plain (fun l hl => (hokC l hl).1) ?_
          refine nodup_filter_cons_plain rfl ?_
          refine nodup_filter_cons_plain rfl ?_
          refine nodup_filter_cons_plain rfl ?_
          refine nodup_filter_append hnT ?_ ?_
          · refine nodup_filter_cons_def (fun _ => False) (Or.inl rfl)
              (LabelsP.plain ?_) (fun k hk => hk.elim) ?_
            · intro l hl
              simp only [List.mem_singleton] at hl
              subst hl
              rfl
            · exact nodup_filter_singleton _
          · refine labels_disjoint hPT
              (labelsP_cons_def (fun i => i = st.label_counter) (Or.inl rfl) rfl
                (LabelsP.plain ?_)) ?_
            · intro l hl
              simp only [List.mem_singleton] at hl
              subst hl
              rfl
            · intro i h1 h2
              simp only [emit_indent_label_counter] at h1
              omega
      | some b =>
        simp only at h
        rw [exc_bind_ok_iff] at h
        obtain ⟨st3, hthen, h⟩ := h
        rw [exc_bind_ok_iff] at h
        obtain ⟨p, helifs, h⟩ := h
        obtain ⟨nf, st4⟩ := p
        simp only at h
        rw [exc_bind_ok_iff] at h
        obtain ⟨st5, helse, h⟩ := h
        cases h
        rw [genElifs.eq_1] at helifs
        cases helifs
        obtain ⟨nT, hlT, hcT, hPT, hsT, hnT⟩ := genStmts_labels thenB _ _ hthen
        have hcT' : st.label_counter + 2 ≤ st3.label_counter := by
          simp at hcT
          omega
        obtain ⟨nEl, hlEl, hcEl, hPEl, hsEl, hnEl⟩ := genStmts_labels b _ _ helse
        have hcEl' : st3.label_counter ≤ st5.label_counter := by
          simp at hcEl
          omega
        simp only [emit_lines, emit_label_counter, emit_indent_label_counter]
        refine ⟨("    " ++ "; if condition") :: (newC ++
            ("    " ++ "cmp rax, 0") ::
            ("    " ++ ("je " ++ ("." ++ "elif" ++ "_" ++
              natFmt (emit_indent "cmp rax, 0" st2).label_counter))) ::
            ("    " ++ "; then block") ::
            (nT ++ ("    " ++ ("jmp " ++ ("." ++ "if_end" ++ "_" ++ natFmt st.label_counter))) ::
              labelDef "elif" st2.label_counter :: ("    " ++ "; else block") ::
              (nEl ++ [labelDef "if_end" st.label_counter, ""]))), ?_, ?_, ?_, ?_, ?_⟩
        · rw [hlEl]
          simp only [emit_lines, emit_indent_lines]
          rw [hlT]
          simp only [emit_indent_lines]
          rw [hlC]
          simp only [emit_indent_lines]
          simp [labelDef, labelName, List.append_assoc]
        · omega
        · refine LabelsP.cons_plain rfl (LabelsP.append
            (LabelsP.plain fun l hl => (hokC l hl).1)
            (LabelsP.cons_plain rfl (LabelsP.cons_plain rfl (LabelsP.cons_plain rfl
              (LabelsP.append (hPT.mono ?_)
                (LabelsP.cons_plain rfl
                  (labelsP_cons_def _ (Or.inr rfl) ?_
                    (LabelsP.cons_plain rfl
                      (LabelsP.append (hPEl.mono ?_)
                        (labelsP_cons_def _ (Or.inl rfl) ?_ (LabelsP.plain ?_)))))))))))
          · intro i hi
            simp at hi
            omega
          · omega
          · intro i hi
            simp at hi
            omega
          · omega
          · intro l hl
            simp only [List.mem_singleton] at hl
            subst hl
            rfl
        · refine List.forall_mem_cons.mpr ⟨rfl, ?_⟩
          refine forall_mem_append' (fun l hl => (hokC l hl).2) ?_
          refine List.forall_mem_cons.mpr ⟨rfl, ?_⟩
          refine List.forall_mem_cons.mpr ⟨rfl, ?_⟩
          refine List.forall_mem_cons.mpr ⟨rfl, ?_⟩
          refine forall_mem_append' hsT ?_
          refine List.forall_mem_cons.mpr ⟨rfl, ?_⟩
          refine List.forall_mem_cons.mpr ⟨isSubRspLine_labelDef _ _, ?_⟩
          refine List.forall_mem_cons.mpr ⟨rfl, ?_⟩
          refine forall_mem_append' hsEl ?_
          intro l hl
          simp only [List.mem_cons, List.not_mem_nil, or_false] at hl
          rcases hl with h1 | h1
          · subst h1; exact isSubRspLine_labelDef _ _
          · subst h1; rfl
        · refine nodup_filter_cons_plain rfl ?_
          refine nodup_filter_append_plain (fun l hl => (hokC l hl).1) ?_
          refine nodup_filter_cons_plain rfl ?_
          refine nodup_filter_cons_plain rfl ?_
          refine nodup_filter_cons_plain rfl ?_
          have hL1 : LabelsP (fun i => i = st.label_counter)
              [labelDef "if_end" st.label_counter, ""] :=
            labelsP_cons_def _ (Or.inl rfl) rfl (LabelsP.plain (by
              intro l hl
              simp only [List.mem_singleton] at hl
              subst hl
              rfl))
          have hN1 : (([labelDef "if_end" st.label_counter, ""]).filter isLabelLine).Nodup := by
            refine nodup_filter_cons_def (fun _ => False) (Or.inl rfl)
              (LabelsP.plain ?_) (fun k hk => hk.elim) (nodup_filter_singleton _)
            intro l hl
            simp only [List.mem_singleton] at hl
            subst hl
            rfl
          have hL2 : LabelsP (fun i => st3.label_counter ≤ i ∨ i = st.label_counter)
              (nEl ++ [labelDef "if_end" st.label_counter, ""]) := by
            refine LabelsP.append (hPEl.mono ?_) (hL1.mono fun i hi => Or.inr hi)
            intro i hi
            simp at hi
            omega
          have hN2 : ((nEl ++ [labelDef "if_end" st.label_counter, ""]).filter
              isLabelLine).Nodup := by
            refine nodup_filter_append hnEl hN1 (labels_disjoint hPEl hL1 ?_)
            intro i h1 h2
            simp at h1
            omega
          have hN4 : ((labelDef "elif" st2.label_counter :: ("    " ++ "; else block") ::
              (nEl ++ [labelDef "if_end" st.label_counter, ""])).filter isLabelLine).Nodup := by
            refine nodup_filter_cons_def (fun i => st3.label_counter ≤ i ∨ i = st.label_counter)
              (Or.inr rfl) (LabelsP.cons_plain rfl hL2) ?_
              (nodup_filter_cons_plain rfl hN2)
            intro k hk
            omega
          refine nodup_filter_append hnT (nodup_filter_cons_plain rfl hN4) ?_
          refine labels_disjoint hPT (LabelsP.cons_plain rfl
            (labelsP_cons_def (fun i => i = st2.label_counter ∨ st3.label_counter ≤ i ∨
              i = st.label_counter) (Or.inr rfl) (Or.inl rfl)
              (LabelsP.cons_plain rfl (hL2.mono fun i hi => Or.inr hi)))) ?_
          intro i h1 h2
          simp at h1
          rcases h2 with h2 | h2 | h2 <;> omega
    | cons ec ebd erest =>
      cases elseB with
      | none =>
        simp only at h
        rw [exc_bind_ok_iff] at h
        obtain ⟨st3, hthen, h⟩ := h
        rw [exc_bind_ok_iff] at h
        obtain ⟨p, helifs, h⟩ := h
        obtain ⟨nf, st4⟩ := p
        simp only at h
        cases h
        obtain ⟨nT, hlT, hcT, hPT, hsT, hnT⟩ := genStmts_labels thenB _ _ hthen
        have hcT' : st.label_counter + 2 ≤ st3.label_counter := by
          simp at hcT
          omega
        obtain ⟨nE, j2, hlE, hcE, hnf, hj2lt, hj2or, hPE, hsE, hnE⟩ :=
          genElifs_labels (ElifList.cons ec ebd erest)
            ((emit_indent "cmp rax, 0" st2).label_counter) _ _ nf st4 helifs
            (by simp only [emit_indent_label_counter]; omega)
        have hcE' : st3.label_counter ≤ st4.label_counter := by
          simp only [emit_indent_label_counter] at hcE
          omega
        have hj2or' : j2 = st.label_counter + 1 ∨ st3.label_counter ≤ j2 := by
          rcases hj2or with h1 | h1
          · left; simp only [emit_indent_label_counter] at h1; omega
          · right; simpa using h1
        subst hnf
        simp only [emit_lines, emit_label_counter, emit_indent_label_counter]
        refine ⟨("    " ++ "; if condition") :: (newC ++
            ("    " ++ "cmp rax, 0") ::
            ("    " ++ ("je " ++ ("." ++ "elif" ++ "_" ++
              natFmt (emit_indent "cmp rax, 0" st2).label_counter))) ::
            ("    " ++ "; then block") ::
            (nT ++ ("    " ++ ("jmp " ++ ("." ++ "if_end" ++ "_" ++ natFmt st.label_counter))) ::
              (nE ++ labelDef "elif" j2 ::
                [labelDef "if_end" st.label_counter, ""]))), ?_, ?_, ?_, ?_, ?_⟩
        · rw [hlE]
          simp only [emit_indent_lines]
          rw [hlT]
          simp only [emit_indent_lines]
          rw [hlC]
          simp only [emit_indent_lines]
          simp [labelDef, labelName, List.append_assoc]
        · omega
        · refine LabelsP.cons_plain rfl (LabelsP.append
            (LabelsP.plain fun l hl => (hokC l hl).1)
            (LabelsP.cons_plain rfl (LabelsP.cons_plain rfl (LabelsP.cons_plain rfl
              (LabelsP.append (hPT.mono ?_)
                (LabelsP.cons_plain rfl
                  (LabelsP.append (hPE.mono ?_)
                    (labelsP_cons_def _ (Or.inr rfl) ?_
                      (labelsP_cons_def _ (Or.inl rfl) ?_ (LabelsP.plain ?_))))))))))
          · intro i hi
            simp at hi
            omega
          · intro i hi
            simp only [emit_indent_label_counter] at hi
            obtain ⟨ha, hb, hc⟩ := hi
            refine ⟨?_, ?_⟩
            · rcases ha with ha | ha <;> omega
            · omega
          · constructor
            · rcases hj2or' with h1 | h1 <;> omega
            · omega
          · omega
          · intro l hl
            simp only [List.mem_singleton] at hl
            subst hl
            rfl
        · refine List.forall_mem_cons.mpr ⟨rfl, ?_⟩
          refine forall_mem_append' (fun l hl => (hokC l hl).2) ?_
          refine List.forall_mem_cons.mpr ⟨rfl, ?_⟩
          refine List.forall_mem_cons.mpr ⟨rfl, ?_⟩
          refine List.forall_mem_cons.mpr ⟨rfl, ?_⟩
          refine forall_mem_append' hsT ?_
          refine List.forall_mem_cons.mpr ⟨rfl, ?_⟩
          refine forall_mem_append' hsE ?_
          refine List.forall_mem_cons.mpr ⟨isSubRspLine_labelDef _ _, ?_⟩
          intro l hl
          simp only [List.mem_cons, List.not_mem_nil, or_false] at hl
          rcases hl with h1 | h1
          · subst h1; exact isSubRspLine_labelDef _ _
          · subst h1; rfl
        · refine nodup_filter_cons_plain rfl ?_
          refine nodup_filter_append_plain (fun l hl => (hokC l hl).1) ?_
          refine nodup_filter_cons_plain rfl ?_
          refine nodup_filter_cons_plain rfl ?_
          refine nodup_filter_cons_plain rfl ?_
          have hL1 : LabelsP (fun i => i = st.label_counter)
              [labelDef "if_end" st.label_counter, ""] :=
            labelsP_cons_def _ (Or.inl rfl) rfl (LabelsP.plain (by
              intro l hl
              simp only [List.mem_singleton] at hl
              subst hl
              rfl))
          have hN1 : (([labelDef "if_end" st.label_counter, ""]).filter isLabelLine).Nodup := by
            refine nodup_filter_cons_def (fun _ => False) (Or.inl rfl)
              (LabelsP.plain ?_) (fun k hk => hk.elim) (nodup_filter_singleton _)
            intro l hl
            simp only [List.mem_singleton] at hl
            subst hl
            rfl
          have hL4 : LabelsP (fun i => i = j2 ∨ i = st.label_counter)
              (labelDef "elif" j2 :: [labelDef "if_end" st.label_counter, ""]) :=
            labelsP_cons_def _ (Or.inr rfl) (Or.inl rfl) (hL1.mono fun i hi => Or.inr hi)
          have hN4 : ((labelDef "elif" j2 ::
              [labelDef "if_end" st.label_counter, ""]).filter isLabelLine).Nodup := by
            refine nodup_filter_cons_def (fun i => i = st.label_counter)
              (Or.inr rfl) hL1 ?_ hN1
            intro k hk
            rcases hj2or' with h1 | h1 <;> omega
          have hN5 : ((nE ++ labelDef "elif" j2 ::
              [labelDef "if_end" st.label_counter, ""]).filter isLabelLine).Nodup := by
            refine nodup_filter_append hnE hN4 (labels_disjoint hPE hL4 ?_)
            intro i h1 h2
            simp only [emit_indent_label_counter] at h1
            obtain ⟨ha, hb, hc⟩ := h1
            rcases h2 with h2 | h2
            · exact hc h2
            · rcases ha with ha | ha <;> omega
          have hPE' : LabelsP (fun i => (i = st.label_counter + 1 ∨ st3.label_counter ≤ i) ∧
              i < st4.label_counter ∧ i ≠ j2) nE := by
            refine hPE.mono ?_
            intro i hi
            simp only [emit_indent_label_counter] at hi
            obtain ⟨ha, hb, hc⟩ := hi
            refine ⟨?_, hb, hc⟩
            rcases ha with ha | ha
            · left; omega
            · right; exact ha
          have hLTail : LabelsP (fun i =>
              ((i = st.label_counter + 1 ∨ st3.label_counter ≤ i) ∧
                i < st4.label_counter ∧ i ≠ j2) ∨ (i = j2 ∨ i = st.label_counter))
              (nE ++ labelDef "elif" j2 :: [labelDef "if_end" st.label_counter, ""]) :=
            LabelsP.append (hPE'.mono fun i hi => Or.inl hi) (hL4.mono fun i hi => Or.inr hi)
          refine nodup_filter_append hnT (nodup_filter_cons_plain rfl hN5) ?_
          refine labels_disjoint hPT (LabelsP.cons_plain rfl hLTail) ?_
          intro i h1 h2
          simp at h1
          rcases h2 with ⟨ha, hb, hc⟩ | h2
          · rcases ha with ha | ha <;> omega
          · rcases h2 with h2 | h2
            · rcases hj2or' with h3 | h3 <;> omega
            · omega
      | some b =>
        simp only at h
        rw [exc_bind_ok_iff] at h
        obtain ⟨st3, hthen, h⟩ := h
        rw [exc_bind_ok_iff] at h
        obtain ⟨p, helifs, h⟩ := h
        obtain ⟨nf, st4⟩ := p
        simp only at h
        rw [exc_bind_ok_iff] at h
        obtain ⟨st5, helse, h⟩ := h
        cases h
        obtain ⟨nT, hlT, hcT, hPT, hsT, hnT⟩ := genStmts_labels thenB _ _ hthen
        have hcT' : st.label_counter + 2 ≤ st3.label_counter := by
          simp at hcT
          omega
        obtain ⟨nE, j2, hlE, hcE, hnf, hj2lt, hj2or, hPE, hsE, hnE⟩ :=
          genElifs_labels (ElifList.cons ec ebd erest)
            ((emit_indent "cmp rax, 0" st2).label_counter) _ _ nf st4 helifs
            (by simp only [emit_indent_label_counter]; omega)
        have hcE' : st3.label_counter ≤ st4.label_counter := by
          simp only [emit_indent_label_counter] at hcE
          omega
        have hj2or' : j2 = st.label_counter + 1 ∨ st3.label_counter ≤ j2 := by
          rcases hj2or with h1 | h1
          · left; simp only [emit_indent_label_counter] at h1; omega
          · right; simpa using h1
        subst hnf
        obtain ⟨nEl, hlEl, hcEl, hPEl, hsEl, hnEl⟩ := genStmts_labels b _ _ helse
        have hcEl' : st4.label_counter ≤ st5.label_counter := by
          simp at hcEl
          omega
        simp only [emit_lines, emit_label_counter, emit_indent_label_counter]
        refine ⟨("    " ++ "; if condition") :: (newC ++
            ("    " ++ "cmp rax, 0") ::
            ("    " ++ ("je " ++ ("." ++ "elif" ++ "_" ++
              natFmt (emit_indent "cmp rax, 0" st2).label_counter))) ::
            ("    " ++ "; then block") ::
            (nT ++ ("    " ++ ("jmp " ++ ("." ++ "if_end" ++ "_" ++ natFmt st.label_counter))) ::
              (nE ++ labelDef "elif" j2 :: ("    " ++ "; else block") ::
                (nEl ++ [labelDef "if_end" st.label_counter, ""])))), ?_, ?_, ?_, ?_, ?_⟩
        · rw [hlEl]
          simp only [emit_lines, emit_indent_lines]
          rw [hlE]
          simp only [emit_indent_lines]
          rw [hlT]
          simp only [emit_indent_lines]
          rw [hlC]
          simp only [emit_indent_lines]
          simp [labelDef, labelName, List.append_assoc]
        · omega
        · refine LabelsP.cons_plain rfl (LabelsP.append
            (LabelsP.plain fun l hl => (hokC l hl).1)
            (LabelsP.cons_plain rfl (LabelsP.cons_plain rfl (LabelsP.cons_plain rfl
              (LabelsP.append (hPT.mono ?_)
                (LabelsP.cons_plain rfl
                  (LabelsP.append (hPE.mono ?_)
                    (labelsP_cons_def _ (Or.inr rfl) ?_
                      (LabelsP.cons_plain rfl
                        (LabelsP.append (hPEl.mono ?_)
                          (labelsP_cons_def _ (Or.inl rfl) ?_ (LabelsP.plain ?_))))))))))))
          · intro i hi
            simp at hi
            omega
          · intro i hi
            simp only [emit_indent_label_counter] at hi
            obtain ⟨ha, hb, hc⟩ := hi
            refine ⟨?_, ?_⟩
            · rcases ha with ha | ha <;> omega
            · omega
          · constructor
            · rcases hj2or' with h1 | h1 <;> omega
            · omega
          · intro i hi
            simp at hi
            omega
          · omega
          · intro l hl
            simp only [List.mem_singleton] at hl
            subst hl
            rfl
        · refine List.forall_mem_cons.mpr ⟨rfl, ?_⟩
          refine forall_mem_append' (fun l hl => (hokC l hl).2) ?_
          refine List.forall_mem_cons.mpr ⟨rfl, ?_⟩
          refine List.forall_mem_cons.mpr ⟨rfl, ?_⟩
          refine List.forall_mem_cons.mpr ⟨rfl, ?_⟩
          refine forall_mem_append' hsT ?_
          refine List.forall_mem_cons.mpr ⟨rfl, ?_⟩
          refine forall_mem_append' hsE ?_
          refine List.forall_mem_cons.mpr ⟨isSubRspLine_labelDef _ _, ?_⟩
          refine List.forall_mem_cons.mpr ⟨rfl, ?_⟩
          refine forall_mem_append' hsEl ?_
          intro l hl
          simp only [List.mem_cons, List.not_mem_nil, or_false] at hl
          rcases hl with h1 | h1
          · subst h1; exact isSubRspLine_labelDef _ _
          · subst h1; rfl
        · refine nodup_filter_cons_plain rfl ?_
          refine nodup_filter_append_plain (fun l hl => (hokC l hl).1) ?_
          refine nodup_filter_cons_plain rfl ?_
          refine nodup_filter_cons_plain rfl ?_
          refine nodup_filter_cons_plain rfl ?_
          have hL1 : LabelsP (fun i => i = st.label_counter)
              [labelDef "if_end" st.label_counter, ""] :=
            labelsP_cons_def _ (Or.inl rfl) rfl (LabelsP.plain (by
              intro l hl
              simp only [List.mem_singleton] at hl
              subst hl
              rfl))
          have hN1 : (([labelDef "if_end" st.label_counter, ""]).filter isLabelLine).Nodup := by
            refine nodup_filter_cons_def (fun _ => False) (Or.inl rfl)
              (LabelsP.plain ?_) (fun k hk => hk.elim) (nodup_filter_singleton _)
            intro l hl
            simp only [List.mem_singleton] at hl
            subst hl
            rfl
          have hL2 : LabelsP (fun i => st4.label_counter ≤ i ∨ i = st.label_counter)
              (nEl ++ [labelDef "if_end" st.label_counter, ""]) := by
            refine LabelsP.append (hPEl.mono ?_) (hL1.mono fun i hi => Or.inr hi)
            intro i hi
            simp at hi
            omega
          have hN2 : ((nEl ++ [labelDef "if_end" st.label_counter, ""]).filter
              isLabelLine).Nodup := by
            refine nodup_filter_append hnEl hN1 (labels_disjoint hPEl hL1 ?_)
            intro i h1 h2
            simp at h1
            omega
          have hL4 : LabelsP (fun i => i = j2 ∨ st4.label_counter ≤ i ∨ i = st.label_counter)
              (labelDef "elif" j2 :: ("    " ++ "; else block") ::
                (nEl ++ [labelDef "if_end" st.label_counter, ""])) :=
            labelsP_cons_def _ (Or.inr rfl) (Or.inl rfl)
              (LabelsP.cons_plain rfl (hL2.mono fun i hi => Or.inr hi))
          have hN4 : ((labelDef "elif" j2 :: ("    " ++ "; else block") ::
              (nEl ++ [labelDef "if_end" st.label_counter, ""])).filter isLabelLine).Nodup := by
            refine nodup_filter_cons_def (fun i => st4.label_counter ≤ i ∨ i = st.label_counter)
              (Or.inr rfl) (LabelsP.cons_plain rfl hL2) ?_
              (nodup_filter_cons_plain rfl hN2)
            intro k hk
            rcases hj2or' with h1 | h1 <;> omega
          have hN5 : ((nE ++ labelDef "elif" j2 :: ("    " ++ "; else block") ::
              (nEl ++ [labelDef "if_end" st.label_counter, ""])).filter isLabelLine).Nodup := by
            refine nodup_filter_append hnE hN4 (labels_disjoint hPE hL4 ?_)
            intro i h1 h2
            simp only [emit_indent_label_counter] at h1
            obtain ⟨ha, hb, hc⟩ := h1
            rcases h2 with h2 | h2 | h2
            · exact hc h2
            · omega
            · rcases ha with ha | ha <;> omega
          have hPE' : LabelsP (fun i => (i = st.label_counter + 1 ∨ st3.label_counter ≤ i) ∧
              i < st4.label_counter ∧ i ≠ j2) nE := by
            refine hPE.mono ?_
            intro i hi
            simp only [emit_indent_label_counter] at hi
            obtain ⟨ha, hb, hc⟩ := hi
            refine ⟨?_, hb, hc⟩
            rcases ha with ha | ha
            · left; omega
            · right; exact ha
          have hLTail : LabelsP (fun i =>
              ((i = st.label_counter + 1 ∨ st3.label_counter ≤ i) ∧
                i < st4.label_counter ∧ i ≠ j2) ∨
              (i = j2 ∨ st4.label_counter ≤ i ∨ i = st.label_counter))
              (nE ++ labelDef "elif" j2 :: ("    " ++ "; else block") ::
                (nEl ++ [labelDef "if_end" st.label_counter, ""])) :=
            LabelsP.append (hPE'.mono fun i hi => Or.inl hi) (hL4.mono fun i hi => Or.inr hi)
          refine nodup_filter_append hnT (nodup_filter_cons_plain rfl hN5) ?_
          refine labels_disjoint hPT (LabelsP.cons_plain rfl hLTail) ?_
          intro i h1 h2
          simp at h1
          rcases h2 with ⟨ha, hb, hc⟩ | h2
          · rcases ha with ha | ha <;> omega
          · rcases h2 with h2 | h2 | h2
            · rcases hj2or' with h3 | h3 <;> omega
            · omega
            · omega
termination_by s => sizeOf s

/-- Sequence version of `genStmt_labels`. -/
theorem genStmts_labels : ∀ l st st', genStmts l st = .ok st' →
    ∃ new, st'.lines = st.lines ++ new ∧ st.label_counter ≤ st'.label_counter ∧
      LabelsP (fun i => st.label_counter ≤ i ∧ i < st'.label_counter) new ∧
      (∀ l ∈ new, isSubRspLine l = false) ∧
      (new.filter isLabelLine).Nodup
  | StmtList.nil, st, st', h => by
    rw [genStmts.eq_1] at h
    cases h
    exact ⟨[], by simp, le_refl _, LabelsP.plain (by simp), by simp, by simp⟩
  | StmtList.cons s r, st, st', h => by
    rw [genStmts.eq_2] at h
    rw [exc_bind_ok_iff] at h
    obtain ⟨st2, hs, hr⟩ := h
    obtain ⟨n1, hl1, hc1, hP1, hs1, hn1⟩ := genStmt_labels s st st2 hs
    obtain ⟨n2, hl2, hc2, hP2, hs2, hn2⟩ := genStmts_labels r st2 st' hr
    refine ⟨n1 ++ n2, ?_, le_trans hc1 hc2, ?_, forall_mem_append' hs1 hs2, ?_⟩
    · rw [hl2, hl1, List.append_assoc]
    · refine LabelsP.append (hP1.mono ?_) (hP2.mono ?_)
      · intro i hi
        omega
      · intro i hi
        omega
    · refine nodup_filter_append hn1 hn2 (labels_disjoint hP1 hP2 ?_)
      intro i h1 h2
      omega
termination_by l => sizeOf l

/-- Elif-loop version of `genStmt_labels`: the pending label the loop is
handed is defined exactly once, every fresh label id stays below the
exit counter, and the returned pending label id is distinct from every
label id the loop defined. -/
theorem genElifs_labels : ∀ el j endl st nf st',
    genElifs el (labelName "elif" j) endl st = .ok (nf, st') → j < st.label_counter →
    ∃ new j2, st'.lines = st.lines ++ new ∧ st.label_counter ≤ st'.label_counter ∧
      nf = labelName "elif" j2 ∧ j2 < st'.label_counter ∧
      (j2 = j ∨ st.label_counter ≤ j2) ∧
      LabelsP (fun i => (i = j ∨ st.label_counter ≤ i) ∧ i < st'.label_counter ∧ i ≠ j2) new ∧
      (∀ l ∈ new, isSubRspLine l = false) ∧
      (new.filter isLabelLine).Nodup
  | ElifList.nil, j, endl, st, nf, st', h, hj => by
    rw [genElifs.eq_1] at h
    cases h
    exact ⟨[], j, by simp, le_refl _, rfl, hj, Or.inl rfl,
      LabelsP.plain (by simp), by simp, by simp⟩
  | ElifList.cons ec ebd erest, j, endl, st, nf, st', h, hj => by
    simp only [genElifs.eq_2, new_label] at h
    rw [exc_bind_ok_iff] at h
    obtain ⟨st2, hcond, h⟩ := h
    rw [exc_bind_ok_iff] at h
    obtain ⟨st3, hbody, h⟩ := h
    obtain ⟨newC, hlC, hcC, hokC⟩ := genExpr_lines ec _ _ hcond
    have hc2 : st2.label_counter = st.label_counter + 1 := by
      simp at hcC
      omega
    obtain ⟨nB, hlB, hcB, hPB, hsB, hnB⟩ := genStmts_labels ebd _ _ hbody
    have hcB' : st.label_counter + 1 ≤ st3.label_counter := by
      simp only [emit_indent_label_counter] at hcB
      omega
    obtain ⟨nR, j2, hlR, hcR, hnf, hj2lt, hj2or, hPR, hsR, hnR⟩ :=
      genElifs_labels erest ((emit (labelName "elif" j ++ ":") st).label_counter) endl
        _ nf st' h (by simp only [emit_label_counter, emit_indent_label_counter]; omega)
    have hcR' : st3.label_counter ≤ st'.label_counter := by
      simp only [emit_indent_label_counter] at hcR
      omega
    have hj2or' : j2 = st.label_counter ∨ st3.label_counter ≤ j2 := by
      rcases hj2or with h1 | h1
      · left; simpa using h1
      · right; simpa using h1
    refine ⟨labelDef "elif" j :: ("    " ++ "; elif condition") ::
      (newC ++ ("    " ++ "cmp rax, 0") ::
        ("    " ++ ("je " ++ ("." ++ "elif" ++ "_" ++
          natFmt (emit (labelName "elif" j ++ ":") st).label_counter))) ::
        ("    " ++ "; elif block") ::
        (nB ++ ("    " ++ ("jmp " ++ endl)) :: nR)), j2, ?_, ?_, hnf, hj2lt, ?_, ?_, ?_, ?_⟩
    · rw [hlR]
      simp only [emit_indent_lines]
      rw [hlB]
      simp only [emit_indent_lines]
      rw [hlC]
      simp only [emit_indent_lines, emit_lines]
      simp [labelDef, labelName, List.append_assoc]
    · omega
    · refine Or.inr ?_
      rcases hj2or' with h1 | h1 <;> omega
    · refine labelsP_cons_def _ (Or.inr rfl) ?_ (LabelsP.cons_plain rfl
        (LabelsP.append (LabelsP.plain fun l hl => (hokC l hl).1)
          (LabelsP.cons_plain rfl (LabelsP.cons_plain rfl (LabelsP.cons_plain rfl
            (LabelsP.append (hPB.mono ?_) (LabelsP.cons_plain rfl (hPR.mono ?_))))))))
      · refine ⟨Or.inl rfl, ?_, ?_⟩
        · omega
        · rcases hj2or' with h1 | h1 <;> omega
      · intro i hi
        simp only [emit_indent_label_counter] at hi
        obtain ⟨ha, hb⟩ := hi
        refine ⟨Or.inr ?_, ?_, ?_⟩
        · omega
        · omega
        · rcases hj2or' with h1 | h1 <;> omega
      · intro i hi
        simp only [emit_label_counter, emit_indent_label_counter] at hi
        obtain ⟨ha, hb, hc⟩ := hi
        refine ⟨Or.inr ?_, hb, hc⟩
        rcases ha with h1 | h1 <;> omega
    · refine List.forall_mem_cons.mpr ⟨isSubRspLine_labelDef _ _, ?_⟩
      refine List.forall_mem_cons.mpr ⟨rfl, ?_⟩
      refine forall_mem_append' (fun l hl => (hokC l hl).2) ?_
      refine List.forall_mem_cons.mpr ⟨rfl, ?_⟩
      refine List.forall_mem_cons.mpr ⟨rfl, ?_⟩
      refine List.forall_mem_cons.mpr ⟨rfl, ?_⟩
      refine forall_mem_append' hsB ?_
      refine List.forall_mem_cons.mpr ⟨rfl, ?_⟩
      exact hsR
    · refine nodup_filter_cons_def (fun i => st.label_counter ≤ i) (Or.inr rfl)
        ?_ (fun k hk => by omega) ?_
      · refine LabelsP.cons_plain rfl (LabelsP.append
          (LabelsP.plain fun l hl => (hokC l hl).1)
          (LabelsP.cons_plain rfl (LabelsP.cons_plain rfl (LabelsP.cons_plain rfl
            (LabelsP.append (hPB.mono ?_) (LabelsP.cons_plain rfl (hPR.mono ?_)))))))
        · intro i hi
          simp only [emit_indent_label_counter] at hi
          omega
        · intro i hi
          simp only [emit_label_counter, emit_indent_label_counter] at hi
          rcases hi.1 with h1 | h1 <;> omega
      · refine nodup_filter_cons_plain rfl ?_
        refine nodup_filter_append_plain (fun l hl => (hokC l hl).1) ?_
        refine nodup_filter_cons_plain rfl ?_
        refine nodup_filter_cons_plain rfl ?_
        refine nodup_filter_cons_plain rfl ?_
        refine nodup_filter_append hnB (nodup_filter_cons_plain rfl hnR) ?_
        refine labels_disjoint hPB (LabelsP.cons_plain rfl hPR) ?_
        intro i h1 h2
        simp only [emit_indent_label_counter] at h1
        simp only [emit_label_counter, emit_indent_label_counter] at h2
        rcases h2.1 with h3 | h3 <;> omega
termination_by el => sizeOf el

end

/-- Generic: filtering with a predicate that is false on every element
gives the empty list. -/
theorem filter_false_nil {α : Type} (p : α → Bool) :
    ∀ l : List α, (∀ x ∈ l, p x = false) → l.filter p = []
  | [], _ => rfl
  | a :: r, h => by
    rw [List.filter_cons, h a (by simp)]
    simp only [Bool.false_eq_true, if_false]
    exact filter_false_nil p r fun x hx => h x (by simp [hx])

theorem filter_cons_true {p : String → Bool} {a : String} {A : List String}
    (h : p a = true) : (a :: A).filter p = a :: A.filter p := by
  rw [List.filter_cons, h]
  simp

theorem filter_cons_false {p : String → Bool} {a : String} {A : List String}
    (h : p a = false) : (a :: A).filter p = A.filter p := by
  rw [List.filter_cons, h]
  simp

/-- No prologue line is a label definition. -/
theorem prologue_noLabel (stmts : StmtList) :
    ∀ l ∈ (prologue stmts).lines, isLabelLine l = false := by
  rw [prologue_lines]
  refine forall_mem_append' (forall_mem_append' ?_ ?_) ?_
  · decide
  · by_cases hn : letCountTop stmts > 0
    · rw [if_pos hn]
      intro l hl
      simp only [List.mem_singleton] at hl
      subst hl
      rfl
    · rw [if_neg hn]
      intro l hl
      exact absurd hl (by simp)
  · decide

/-- Splitting a successful whole-program run's output into the prologue,
the statement-loop body, and the fixed default-exit coda, carrying the
body's label and stack-reservation facts from the statement walk. -/
theorem generate_lines (prog : StmtList) (st' : CodeGen) (h : genProgram prog = .ok st') :
    ∃ body, st'.lines = (prologue prog).lines ++ (body ++
        ["", "    " ++ "; default exit", "    " ++ "mov rax, 60",
         "    " ++ "xor rdi, rdi", "    " ++ "syscall"]) ∧
      (∀ l ∈ body, isSubRspLine l = false) ∧
      (body.filter isLabelLine).Nodup := by
  simp only [genProgram, generate] at h
  rw [exc_bind_ok_iff] at h
  obtain ⟨st2, hgen, h⟩ := h
  cases h
  obtain ⟨body, hl, hc, hP, hs, hn⟩ := genStmts_labels prog _ _ hgen
  refine ⟨body, ?_, hs, hn⟩
  simp only [emit_lines, emit_indent_lines]
  rw [hl]
  simp [List.append_assoc]

/-- C9: in every successful generation pass no two emitted label
definitions collide — the output's label-definition lines are pairwise
distinct for every program, at any nesting depth; and for the concrete
if/elif/elif/else chain `c9Chain` (N = 2 elif branches) the pass emits
exactly the N + 1 = 3 distinct elif branch-target labels plus the one
shared end label, with all three branch bodies jumping to that single
end label. -/
theorem c9_label_uniqueness :
    (∀ prog st', genProgram prog = .ok st' → (st'.lines.filter isLabelLine).Nodup) ∧
    (genResult c9Chain).lines.filter isLabelLine =
      [labelDef "elif" 1, labelDef "elif" 2, labelDef "elif" 3, labelDef "if_end" 0] ∧
    (genResult c9Chain).lines.count ("    jmp " ++ labelName "if_end" 0) = 3 := by
  refine ⟨?_, ?_, ?_⟩
  · intro prog st' h
    obtain ⟨body, hlines, _, hn⟩ := generate_lines prog st' h
    rw [hlines, List.filter_append, labels_filter_nil (prologue_noLabel prog),
      List.nil_append, List.filter_append,
      labels_filter_nil (show ∀ l ∈ ["", "    " ++ "; default exit", "    " ++ "mov rax, 60",
        "    " ++ "xor rdi, rdi", "    " ++ "syscall"], isLabelLine l = false by decide),
      List.append_nil]
    exact hn
  · rfl
  · rfl

/-- C9 witness: the chain program generates successfully and its emitted
label-definition lines are pairwise distinct. -/
theorem c9_label_uniqueness_witness :
    genProgram c9Chain = .ok (genResult c9Chain) ∧
    ((genResult c9Chain).lines.filter isLabelLine).Nodup :=
  ⟨rfl, c9_label_uniqueness.1 c9Chain (genResult c9Chain) rfl⟩

/-- C10: whenever the top-level statement sequence contains n >= 1 `Let`
statements, the successful output's line 10 (right after the ten
scaffold lines) is the reservation `sub rsp, ((8n+15)/16)*16` — 8 bytes
per top-level binding rounded up to a multiple of 16 — and it is the
only stack-reservation instruction in the output; when n = 0 no line of
the output is a stack reservation at all. -/
theorem c10_stack_reservation : ∀ prog st', genProgram prog = .ok st' →
    (1 ≤ letCountTop prog →
      st'.lines.get? 10 =
        some ("    sub rsp, " ++ natFmt ((8 * letCountTop prog + 15) / 16 * 16)) ∧
      st'.lines.filter isSubRspLine =
        ["    sub rsp, " ++ natFmt ((8 * letCountTop prog + 15) / 16 * 16)]) ∧
    (letCountTop prog = 0 → ∀ l ∈ st'.lines, isSubRspLine l = false) := by
  intro prog st' h
  obtain ⟨body, hlines, hs, _⟩ := generate_lines prog st' h
  have harith : (8 * letCountTop prog + 15) / 16 * 16 = reservedStackSpace prog := by
    rw [Nat.mul_comm 8 (letCountTop prog)]
    exact rfl
  constructor
  · intro hn
    rw [hlines, prologue_lines, if_pos (show letCountTop prog > 0 by omega), harith]
    constructor
    · rfl
    · simp only [List.append_assoc]
      rw [List.filter_append,
        filter_false_nil _ _ (show ∀ x ∈ ["section .data", "", "section .bss", "",
          "section .text", "global _start", "", "_start:", "    push rbp",
          "    mov rbp, rsp"], isSubRspLine x = false by decide),
        List.nil_append, List.singleton_append, List.singleton_append]
      rw [filter_cons_true rfl, filter_cons_false rfl]
      rw [List.filter_append, filter_false_nil _ _ hs, List.nil_append,
        filter_false_nil _ _ (show ∀ x ∈ ["", "    " ++ "; default exit",
          "    " ++ "mov rax, 60", "    " ++ "xor rdi, rdi", "    " ++ "syscall"],
          isSubRspLine x = false by decide)]
  · intro hz
    rw [hlines, prologue_lines, if_neg (by omega)]
    refine forall_mem_append' (forall_mem_append' (forall_mem_append' ?_ ?_) ?_)
      (forall_mem_append' hs ?_)
    · decide
    · decide
    · decide
    · decide

/-- C10 witness: the one-`Let` program generates successfully, reserves
16 bytes on line 10, and has exactly that one reservation line. -/
theorem c10_stack_reservation_witness :
    1 ≤ letCountTop c10Prog ∧
    (genResult c10Prog).lines.get? 10 =
      some ("    sub rsp, " ++ natFmt ((8 * letCountTop c10Prog + 15) / 16 * 16)) ∧
    (genResult c10Prog).lines.filter isSubRspLine =
      ["    sub rsp, " ++ natFmt ((8 * letCountTop c10Prog + 15) / 16 * 16)] :=
  ⟨by decide, (c10_stack_reservation c10Prog (genResult c10Prog) rfl).1 (by decide)⟩

/-- C7: a leading unary minus applies to the immediately following
primary only — for all literals a and b, `- a * b` parses as
`(-a) * b`, never `-(a * b)`; and compiling `exit(-2*3);` emits
`neg rax` (line 15, right after loading 2) before the
`imul rax, rbx` (line 17), i.e. negate-then-multiply. -/
theorem c7_unary_binds_primary :
    (∀ a b : Int,
      parseExprF 48 [Token.Minus, Token.Number a, Token.Asterisk, Token.Number b] =
        some (Expr.BinOp (Expr.UnaryOp Op.Sub (Expr.Num a)) Op.Mul (Expr.Num b), [])) ∧
    frontend "exit(-2*3);" = some c7Prog ∧
    (genResult c7Prog).lines.get? 15 = some ("    " ++ "neg rax") ∧
    (genResult c7Prog).lines.get? 17 = some ("    " ++ "imul rax, rbx") ∧
    genProgram c7Prog = .ok (genResult c7Prog) := by
  refine ⟨fun a b => rfl, rfl, rfl, rfl, rfl⟩

theorem isIdentChar_ne_bang {c : Char} (h : isIdentChar c = true) : c ≠ '!' := by
  intro hc
  subst hc
  exact absurd h (by decide)

theorem isDigitCh_ne_bang {c : Char} (h : isDigitCh c = true) : c ≠ '!' := by
  intro hc
  subst hc
  exact absurd h (by decide)

/-- Stepping the lone-bang scan over any non-`'!'` character. -/
theorem hasLoneBang_cons_ne {a : Char} {r : List Char} (ha : a ≠ '!') :
    hasLoneBang (a :: r) = hasLoneBang r := by
  cases r with
  | nil =>
    rw [hasLoneBang.eq_2, hasLoneBang.eq_1]
    simp [ha]
  | cons d t =>
    rw [hasLoneBang.eq_3, if_neg ha]

/-- The lone-bang scan at a `'!'`, phrased through `head?`. -/
theorem hasLoneBang_bang (r : List Char) :
    hasLoneBang ('!' :: r) =
      if r.head? = some '=' then hasLoneBang r.tail else true := by
  cases r with
  | nil =>
    rw [hasLoneBang.eq_2]
    simp
  | cons d t =>
    rw [hasLoneBang.eq_3, if_pos rfl]
    by_cases hd : d = '='
    · subst hd
      simp [List.head?, List.tail]
    · rw [if_neg hd, if_neg (by simp [hd])]

/-- Dropping a run of non-`'!'` characters does not change whether a
lone bang exists. -/
theorem hasLoneBang_dropWhile (p : Char → Bool) (hp : ∀ a, p a = true → a ≠ '!') :
    ∀ l : List Char, hasLoneBang (l.dropWhile p) = hasLoneBang l
  | [] => rfl
  | a :: r => by
    rw [List.dropWhile_cons]
    by_cases hpa : p a = true
    · rw [if_pos hpa, hasLoneBang_cons_ne (hp a hpa)]
      exact hasLoneBang_dropWhile p hp r
    · rw [if_neg hpa]

theorem dropWhile_length_le (p : Char → Bool) :
    ∀ l : List Char, (l.dropWhile p).length ≤ l.length
  | [] => le_refl _
  | a :: r => by
    rw [List.dropWhile_cons]
    by_cases hpa : p a = true
    · rw [if_pos hpa]
      have := dropWhile_length_le p r
      simp only [List.length_cons]
      omega
    · rw [if_neg hpa]

/-- Core lexer analysis: with sufficient fuel, tokenization fails (the
`panic!` of the `'!'` arm) exactly when the scan reaches a `'!'` not
immediately followed by `'='`. -/
theorem tokenizeF_none_iff : ∀ fuel cs, cs.length < fuel →
    (tokenizeF fuel cs = none ↔ hasLoneBang cs = true)
  | 0, cs, h => absurd h (by omega)
  | fuel + 1, [], h => by
    rw [tokenizeF.eq_2, hasLoneBang.eq_1]
    simp
  | fuel + 1, c :: cs, h => by
    have hlen : cs.length < fuel := by
      simp only [List.length_cons] at h
      omega
    have htlen : cs.tail.length < fuel := by
      have := List.length_tail cs
      omega
    rw [tokenizeF.eq_3]
    by_cases ha : isAlphaCh c = true
    · rw [if_pos ha]
      have hid : isIdentChar c = true := by simp [isIdentChar, ha]
      rw [Option.map_eq_none', List.dropWhile_cons, if_pos hid,
        tokenizeF_none_iff fuel _ (lt_of_le_of_lt (dropWhile_length_le _ _) hlen),
        hasLoneBang_dropWhile isIdentChar (fun a hh => isIdentChar_ne_bang hh) cs,
        hasLoneBang_cons_ne (isIdentChar_ne_bang hid)]
    rw [if_neg ha]
    by_cases hd : isDigitCh c = true
    · rw [if_pos hd]
      rw [Option.map_eq_none', List.dropWhile_cons, if_pos hd,
        tokenizeF_none_iff fuel _ (lt_of_le_of_lt (dropWhile_length_le _ _) hlen),
        hasLoneBang_dropWhile isDigitCh (fun a hh => isDigitCh_ne_bang hh) cs,
        hasLoneBang_cons_ne (isDigitCh_ne_bang hd)]
    rw [if_neg hd]
    by_cases he : c = '='
    · subst he
      rw [if_pos rfl, hasLoneBang_cons_ne (by decide)]
      by_cases hh : cs.head? = some '='
      · rw [if_pos hh, Option.map_eq_none', tokenizeF_none_iff fuel _ htlen]
        cases cs with
        | nil => exact absurd hh (by simp)
        | cons d r =>
          have hd2 : d = '=' := by simpa using hh
          subst hd2
          rw [hasLoneBang_cons_ne (by decide)]
          exact Iff.rfl
      · rw [if_neg hh, Option.map_eq_none', tokenizeF_none_iff fuel cs hlen]
    rw [if_neg he]
    by_cases hgt : c = '>'
    · subst hgt
      rw [if_pos rfl, hasLoneBang_cons_ne (by decide)]
      by_cases hh : cs.head? = some '='
      · rw [if_pos hh, Option.map_eq_none', tokenizeF_none_iff fuel cs hlen]
      · rw [if_neg hh, Option.map_eq_none', tokenizeF_none_iff fuel cs hlen]
    rw [if_neg hgt]
    by_cases hlt : c = '<'
    · subst hlt
      rw [if_pos rfl, hasLoneBang_cons_ne (by decide)]
      by_cases hh : cs.head? = some '='
      · rw [if_pos hh, Option.map_eq_none', tokenizeF_none_iff fuel cs hlen]
      · rw [if_neg hh, Option.map_eq_none', tokenizeF_none_iff fuel cs hlen]
    rw [if_neg hlt]
    by_cases hbg : c = '!'
    · subst hbg
      rw [if_pos rfl, hasLoneBang_bang]
      by_cases hh : cs.head? = some '='
      · rw [if_pos hh, if_pos hh, Option.map_eq_none', tokenizeF_none_iff fuel _ htlen]
      · rw [if_neg hh, if_neg hh]
        simp
    rw [if_neg hbg]
    by_cases hpl : c = '+'
    · subst hpl
      rw [if_pos rfl, hasLoneBang_cons_ne (by decide),
        Option.map_eq_none', tokenizeF_none_iff fuel cs hlen]
    rw [if_neg hpl]
    by_cases hmn : c = '-'
    · subst hmn
      rw [if_pos rfl, hasLoneBang_cons_ne (by decide),
        Option.map_eq_none', tokenizeF_none_iff fuel cs hlen]
    rw [if_neg hmn]
    by_cases hat : c = '*'
    · subst hat
      rw [if_pos rfl, hasLoneBang_cons_ne (by decide),
        Option.map_eq_none', tokenizeF_none_iff fuel cs hlen]
    rw [if_neg hat]
    by_cases hsl : c = '/'
    · subst hsl
      rw [if_pos rfl, hasLoneBang_cons_ne (by decide),
        Option.map_eq_none', tokenizeF_none_iff fuel cs hlen]
    rw [if_neg hsl]
    by_cases hlp : c = '('
    · subst hlp
      rw [if_pos rfl, hasLoneBang_cons_ne (by decide),
        Option.map_eq_none', tokenizeF_none_iff fuel cs hlen]
    rw [if_neg hlp]
    by_cases hrp : c = ')'
    · subst hrp
      rw [if_pos rfl, hasLoneBang_cons_ne (by decide),
        Option.map_eq_none', tokenizeF_none_iff fuel cs hlen]
    rw [if_neg hrp]
    by_cases hlb : c = '\x7b'
    · subst hlb
      rw [if_pos rfl, hasLoneBang_cons_ne (by decide),
        Option.map_eq_none', tokenizeF_none_iff fuel cs hlen]
    rw [if_neg hlb]
    by_cases hrb : c = '\x7d'
    · subst hrb
      rw [if_pos rfl, hasLoneBang_cons_ne (by decide),
        Option.map_eq_none', tokenizeF_none_iff fuel cs hlen]
    rw [if_neg hrb]
    by_cases hsc : c = ';'
    · subst hsc
      rw [if_pos rfl, hasLoneBang_cons_ne (by decide),
        Option.map_eq_none', tokenizeF_none_iff fuel cs hlen]
    rw [if_neg hsc]
    by_cases hws : (c = ' ' || c = '\n' || c = '\t' || c = '\r') = true
    · rw [if_pos hws]
      have hcb : c ≠ '!' := by
        rcases (by simpa using hws : ((c = ' ' ∨ c = '\n') ∨ c = '\t') ∨ c = '\x0d') with
          ((hh | hh) | hh) | hh <;> (subst hh; decide)
      rw [tokenizeF_none_iff fuel cs hlen, hasLoneBang_cons_ne hcb]
    · rw [if_neg hws, tokenizeF_none_iff fuel cs hlen, hasLoneBang_cons_ne hbg]

/-- C5: the lexer terminates abnormally exactly when the input contains
a `'!'` not immediately followed by `'='` (so it returns a token
sequence for every other input), and any character it does not
recognize — not a letter, digit, operator, punctuation or whitespace
character — is silently skipped: the token stream is unchanged and no
diagnostic exists to be produced. -/
theorem c5_lexer_failure_iff_lone_bang :
    (∀ cs : List Char, (tokenize cs = none ↔ hasLoneBang cs = true)) ∧
    (∀ (c : Char) (cs : List Char), recognizedChar c = false →
      tokenize (c :: cs) = tokenize cs) := by
  constructor
  · intro cs
    exact tokenizeF_none_iff (cs.length + 1) cs (by omega)
  · intro c cs hrec
    simp only [recognizedChar, Bool.or_eq_false_iff, decide_eq_false_iff_not] at hrec
    obtain ⟨⟨⟨⟨⟨⟨⟨⟨⟨⟨⟨⟨⟨⟨⟨⟨⟨⟨ha, hd⟩, he⟩, hgt⟩, hlt⟩, hbg⟩, hpl⟩, hmn⟩, hat⟩, hsl⟩,
      hlp⟩, hrp⟩, hlb⟩, hrb⟩, hsc⟩, hsp⟩, hnl⟩, htb⟩, hcr⟩ := hrec
    show tokenizeF (cs.length + 1 + 1) (c :: cs) = tokenizeF (cs.length + 1) cs
    rw [tokenizeF.eq_3, if_neg (by simp [ha]), if_neg (by simp [hd]), if_neg he, if_neg hgt,
      if_neg hlt, if_neg hbg, if_neg hpl, if_neg hmn, if_neg hat, if_neg hsl, if_neg hlp,
      if_neg hrp, if_neg hlb, if_neg hrb, if_neg hsc,
      if_neg (by simp [hsp, hnl, htb, hcr])]

/-- C5 witness: `1 ! 2` fails (lone bang), and the unrecognized `'@'`
is skipped without a trace. -/
theorem c5_lexer_failure_iff_lone_bang_witness :
    (tokenize ['1', ' ', '!', ' ', '2'] = none ↔
      hasLoneBang ['1', ' ', '!', ' ', '2'] = true) ∧
    recognizedChar '@' = false ∧ tokenize ['@', 'x'] = tokenize ['x'] :=
  ⟨c5_lexer_failure_iff_lone_bang.1 ['1', ' ', '!', ' ', '2'], by decide,
    c5_lexer_failure_iff_lone_bang.2 '@' ['x'] (by decide)⟩
